import Mathlib

/-!
# Verification of the rush shell against its specification

Shallow embedding of the rush shell (a Unix shell written in Rust) and
proofs about it.  Strings that the Rust code manipulates at byte level
(`&str` / `as_bytes`) are modelled as `List Nat` of byte values; machine
integers (`i32`, `i64`) are modelled as `Int` with explicit wrapping where
the Rust code wraps.  Loops that are not structurally recursive are given
a fuel parameter that provably suffices (fuel bounds are derived from the
loop variants of the Rust code).
-/

set_option maxHeartbeats 1000000

namespace Rush

/-! ## Glob matcher (src/glob.rs)

`matches_pattern` compares a pattern and a file name byte by byte.
Byte constants: `*` = 42, `?` = 63, `[` = 91, `]` = 93, `!` = 33,
`^` = 94, `-` = 45.
-/

/-- Embeds `has_glob_chars` from src/glob.rs: does the word contain one of
the bytes `*`, `?`, `[`. -/
def has_glob_chars (s : List Nat) : Bool :=
  s.any (fun b => b == 42 || b == 63 || b == 91)

/-- Embeds the character-class scanning loop of `matches_recursive`
(src/glob.rs, the `b'['` arm): scans the pattern suffix after `[` (and
after an optional negation marker), accumulating whether byte `ch` is
matched, and returns the matched flag together with the pattern remaining
after the closing `]`; `none` when there is no closing `]`. -/
def classScan (ch : Nat) : List Nat → Bool → Bool → Option (Bool × List Nat)
  | [], _, _ => none
  | [b], matched, firstIter =>
    if b == 93 && !firstIter then some (matched, [])
    else classScan ch [] (matched || b == ch) false
  | [b, d], matched, firstIter =>
    if b == 93 && !firstIter then some (matched, [d])
    else classScan ch [d] (matched || b == ch) false
  | b :: d :: h :: rest2, matched, firstIter =>
    if b == 93 && !firstIter then
      some (matched, d :: h :: rest2)
    else if d == 45 && h != 93 then
      classScan ch rest2
        (matched || decide ((b ≤ ch ∧ ch ≤ h) ∨ (h ≤ ch ∧ ch ≤ b))) false
    else
      classScan ch (d :: h :: rest2) (matched || b == ch) false

/-- Embeds the negation detection of the `b'['` arm of
`matches_recursive`: `let negate = pi < plen && (pat[pi] == b'!' ||
pat[pi] == b'^'); if negate { pi += 1; }`.  Returns the negate flag and
the pattern suffix after the optional marker. -/
def negSplit (ps : List Nat) : Bool × List Nat :=
  match ps with
  | [] => (false, ps)
  | b :: t => if b == 33 || b == 94 then (true, t) else (false, b :: t)

theorem negSplit_snd_length (ps : List Nat) : (negSplit ps).2.length ≤ ps.length := by
  cases ps with
  | nil => simp [negSplit]
  | cons b t =>
    by_cases h : (b == 33 || b == 94) = true
    · simp [negSplit, h]
    · simp [negSplit, h]

/-- Embeds `matches_recursive` from src/glob.rs, with a fuel parameter:
each recursive call of the Rust function strictly decreases the length of
the remaining pattern, so fuel `pattern.length + 1` suffices
(`matchesFuel_congr` below proves fuel irrelevance). -/
def matchesFuel : Nat → List Nat → List Nat → Bool
  | 0, _, _ => false
  | _ + 1, [], ns => ns.isEmpty
  | fuel + 1, p :: ps, ns =>
    if p == 42 then
      -- skip consecutive stars; if the pattern ends there, match everything
      let ps2 := List.dropWhile (fun b => b == 42) ps
      if ps2.isEmpty then true
      else (List.range (ns.length + 1)).any (fun k => matchesFuel fuel ps2 (ns.drop k))
    else if p == 63 then
      match ns with
      | [] => false
      | _ :: ns2 => matchesFuel fuel ps ns2
    else if p == 91 then
      match ns with
      | [] => false
      | ch :: ns2 =>
        match classScan ch (negSplit ps).2 false true with
        | none => false
        | some (matched, rest) =>
          if (if (negSplit ps).1 then !matched else matched) then
            matchesFuel fuel rest ns2
          else false
    else
      match ns with
      | [] => false
      | c :: ns2 => if c == p then matchesFuel fuel ps ns2 else false

/-- Embeds `matches_pattern` from src/glob.rs: the top-level matcher entry
point (`matches_recursive(pat, 0, nam, 0)` on the byte slices). -/
def matches_pattern (pattern name : List Nat) : Bool :=
  matchesFuel (pattern.length + 1) pattern name

theorem classScan_some_length {ch : Nat} {l : List Nat} {m fi : Bool}
    {b : Bool} {rest : List Nat}
    (h : classScan ch l m fi = some (b, rest)) : rest.length < l.length := by
  induction l, m, fi using classScan.induct ch generalizing b rest with
  | case1 => simp [classScan] at h
  | case2 x m fi hx =>
    rw [classScan, if_pos hx] at h
    cases h
    simp
  | case3 x m fi hx ih =>
    rw [classScan, if_neg hx] at h
    have := ih h
    simp at this
  | case4 x d m fi hx =>
    rw [classScan, if_pos hx] at h
    cases h
    simp
  | case5 x d m fi hx ih =>
    rw [classScan, if_neg hx] at h
    have := ih h
    simp only [List.length_cons] at this ⊢
    omega
  | case6 x d hh rest2 m fi hx =>
    rw [classScan, if_pos hx] at h
    cases h
    simp
  | case7 x d hh rest2 m fi hx hd ih =>
    rw [classScan, if_neg hx, if_pos hd] at h
    have := ih h
    simp only [List.length_cons] at this ⊢
    omega
  | case8 x d hh rest2 m fi hx hd ih =>
    rw [classScan, if_neg hx, if_neg hd] at h
    have := ih h
    simp only [List.length_cons] at this ⊢
    omega

theorem any_congr {α : Type} {l : List α} {f g : α → Bool}
    (h : ∀ x ∈ l, f x = g x) : l.any f = l.any g := by
  induction l with
  | nil => rfl
  | cons a t ih =>
    simp only [List.any_cons]
    rw [h a (by simp), ih (fun x hx => h x (by simp [hx]))]

/-- The result of `matchesFuel` does not depend on the fuel as long as the
fuel exceeds the pattern length (every recursive call of the Rust function
strictly shrinks the remaining pattern). -/
theorem matchesFuel_congr :
    ∀ (f g : Nat) (ps ns : List Nat), ps.length < f → ps.length < g →
      matchesFuel f ps ns = matchesFuel g ps ns := by
  intro f
  induction f with
  | zero => intro g ps ns hf; omega
  | succ f ih =>
    intro g ps ns hf hg
    match g, ps with
    | g + 1, [] => rfl
    | g + 1, p :: ps =>
      simp only [List.length_cons] at hf hg
      simp only [matchesFuel]
      by_cases h42 : (p == 42) = true
      · simp only [h42, if_true]
        by_cases hemp : (List.dropWhile (fun b => b == 42) ps).isEmpty
        · simp [hemp]
        · simp only [hemp, if_false, Bool.false_eq_true]
          refine any_congr (fun k _ => ?_)
          have hlen : (List.dropWhile (fun b => b == 42) ps).length ≤ ps.length :=
            (List.dropWhile_suffix _).length_le
          exact ih g _ _ (by omega) (by omega)
      · simp only [h42, if_false, Bool.false_eq_true]
        by_cases h63 : (p == 63) = true
        · simp only [h63, if_true]
          cases ns with
          | nil => rfl
          | cons b ns2 => exact ih g ps ns2 (by omega) (by omega)
        · simp only [h63, if_false, Bool.false_eq_true]
          by_cases h91 : (p == 91) = true
          · simp only [h91, if_true]
            cases ns with
            | nil => rfl
            | cons ch ns2 =>
              cases hcs : classScan ch (negSplit ps).2 false true with
              | none => simp only [hcs]
              | some pr =>
                obtain ⟨matched, rest⟩ := pr
                simp only [hcs]
                have hrest : rest.length < ps.length + 1 := by
                  have h1 := classScan_some_length hcs
                  have h2 := negSplit_snd_length ps
                  omega
                by_cases hm : (if (negSplit ps).1 then !matched else matched) = true
                · simp only [hm, if_true]
                  exact ih g rest ns2 (by omega) (by omega)
                · simp only [hm, if_false, Bool.false_eq_true]
          · simp only [h91, if_false, Bool.false_eq_true]
            cases ns with
            | nil => rfl
            | cons c ns2 =>
              by_cases hc : (c == p) = true
              · simp only [hc, if_true]
                exact ih g ps ns2 (by omega) (by omega)
              · simp only [hc, if_false, Bool.false_eq_true]

/-! ## Glob pattern semantics (specification side for the anchoredness claim)

A pattern is tokenised into literal bytes, `?`, `*` and character
classes; `GMatch` is the language of a token list.  By construction a
token list matches a string only by consuming it entirely, so the
equivalence `matches_pattern p s = true ↔ GMatch (tokenize p) s`
expresses that the matcher is anchored. -/

/-- One byte-range of a character class; a singleton member `c` is the
range `(c, c)`.  `rangeHolds` accepts a byte lying in the range taken in
either direction (the Rust code accepts `lo <= ch <= hi` or
`hi <= ch <= lo`). -/
def rangeHolds (ch : Nat) (r : Nat × Nat) : Bool :=
  decide ((r.1 ≤ ch ∧ ch ≤ r.2) ∨ (r.2 ≤ ch ∧ ch ≤ r.1))

/-- Whether a (possibly negated) character class accepts byte `ch`. -/
def clsHolds (neg : Bool) (rs : List (Nat × Nat)) (ch : Nat) : Bool :=
  if neg then !(rs.any (rangeHolds ch)) else rs.any (rangeHolds ch)

/-- Character-class tokenisation: same traversal as `classScan` but
collecting the ranges instead of testing one byte. -/
def classTokens : List Nat → Bool → Option (List (Nat × Nat) × List Nat)
  | [], _ => none
  | [b], firstIter =>
    if b == 93 && !firstIter then some ([], [])
    else (classTokens [] false).map (fun p => ((b, b) :: p.1, p.2))
  | [b, d], firstIter =>
    if b == 93 && !firstIter then some ([], [d])
    else (classTokens [d] false).map (fun p => ((b, b) :: p.1, p.2))
  | b :: d :: h :: rest2, firstIter =>
    if b == 93 && !firstIter then some ([], d :: h :: rest2)
    else if d == 45 && h != 93 then
      (classTokens rest2 false).map (fun p => ((b, h) :: p.1, p.2))
    else
      (classTokens (d :: h :: rest2) false).map (fun p => ((b, b) :: p.1, p.2))

theorem classTokens_some_length {l : List Nat} {fi : Bool}
    {rs : List (Nat × Nat)} {rest : List Nat}
    (h : classTokens l fi = some (rs, rest)) : rest.length < l.length := by
  induction l, fi using classTokens.induct generalizing rs rest with
  | case1 => simp [classTokens] at h
  | case2 x fi hx =>
    rw [classTokens, if_pos hx] at h
    cases h
    simp
  | case3 x fi hx ih =>
    rw [classTokens, if_neg hx] at h
    cases hc : classTokens [] false with
    | none => rw [hc] at h; exact Option.noConfusion h
    | some p =>
      rw [hc] at h
      simp only [Option.map_some'] at h
      cases h
      have := ih hc
      simp at this
  | case4 x d fi hx =>
    rw [classTokens, if_pos hx] at h
    cases h
    simp
  | case5 x d fi hx ih =>
    rw [classTokens, if_neg hx] at h
    cases hc : classTokens [d] false with
    | none => rw [hc] at h; exact Option.noConfusion h
    | some p =>
      rw [hc] at h
      simp only [Option.map_some'] at h
      cases h
      have := ih hc
      simp only [List.length_cons] at this ⊢
      omega
  | case6 x d hh rest2 fi hx =>
    rw [classTokens, if_pos hx] at h
    cases h
    simp
  | case7 x d hh rest2 fi hx hd ih =>
    rw [classTokens, if_neg hx, if_pos hd] at h
    cases hc : classTokens rest2 false with
    | none => rw [hc] at h; exact Option.noConfusion h
    | some p =>
      rw [hc] at h
      simp only [Option.map_some'] at h
      cases h
      have := ih hc
      simp only [List.length_cons] at this ⊢
      omega
  | case8 x d hh rest2 fi hx hd ih =>
    rw [classTokens, if_neg hx, if_neg hd] at h
    cases hc : classTokens (d :: hh :: rest2) false with
    | none => rw [hc] at h; exact Option.noConfusion h
    | some p =>
      rw [hc] at h
      simp only [Option.map_some'] at h
      cases h
      have := ih hc
      simp only [List.length_cons] at this ⊢
      omega

theorem beq_eq_rangeHolds (b ch : Nat) : (b == ch) = rangeHolds ch (b, b) := by
  by_cases h : b = ch
  · subst h
    simp [rangeHolds]
  · simp only [rangeHolds]
    rw [Bool.eq_iff_iff]
    simp only [beq_iff_eq, decide_eq_true_eq]
    constructor
    · intro hc; exact absurd hc h
    · intro hc; omega

/-- `classScan` computes exactly the acceptance of the ranges collected by
`classTokens`, accumulated onto the incoming `matched` flag. -/
theorem classScan_eq_classTokens (ch : Nat) (l : List Nat) (fi : Bool) :
    ∀ (m : Bool),
      classScan ch l m fi =
        (classTokens l fi).map (fun p => (m || p.1.any (rangeHolds ch), p.2)) := by
  induction l, fi using classTokens.induct with
  | case1 => intro m; rfl
  | case2 x fi hx =>
    intro m
    rw [classScan, classTokens, if_pos hx, if_pos hx]
    simp
  | case3 x fi hx ih =>
    intro m
    rw [classScan, classTokens, if_neg hx, if_neg hx]
    rw [ih]
    simp [classTokens]
  | case4 x d fi hx =>
    intro m
    rw [classScan, classTokens, if_pos hx, if_pos hx]
    simp
  | case5 x d fi hx ih =>
    intro m
    rw [classScan, classTokens, if_neg hx, if_neg hx]
    rw [ih]
    cases hc : classTokens [d] false with
    | none => simp
    | some p =>
      simp only [Option.map_some', List.any_cons]
      rw [beq_eq_rangeHolds]
      congr 2
      rw [Bool.or_assoc]
  | case6 x d hh rest2 fi hx =>
    intro m
    rw [classScan, classTokens, if_pos hx, if_pos hx]
    simp
  | case7 x d hh rest2 fi hx hd ih =>
    intro m
    rw [classScan, classTokens, if_neg hx, if_neg hx, if_pos hd, if_pos hd]
    rw [ih]
    cases hc : classTokens rest2 false with
    | none => simp
    | some p =>
      simp only [Option.map_some', List.any_cons]
      simp only [rangeHolds]
      congr 2
      rw [Bool.or_assoc]
  | case8 x d hh rest2 fi hx hd ih =>
    intro m
    rw [classScan, classTokens, if_neg hx, if_neg hx, if_neg hd, if_neg hd]
    rw [ih]
    cases hc : classTokens (d :: hh :: rest2) false with
    | none => simp
    | some p =>
      simp only [Option.map_some', List.any_cons]
      rw [beq_eq_rangeHolds]
      congr 2
      rw [Bool.or_assoc]

/-- Glob pattern tokens: literal byte, `?`, `*`, or a character class. -/
inductive GTok where
  | lit (b : Nat)
  | anyc
  | star
  | cls (neg : Bool) (rs : List (Nat × Nat))
deriving DecidableEq

/-- Tokenises a glob pattern; `none` when a character class has no closing
bracket (in which case the matcher rejects every string). -/
def tokenize (l : List Nat) : Option (List GTok) :=
  match l with
  | [] => some []
  | p :: ps =>
    if p == 42 then (tokenize ps).map (fun ts => GTok.star :: ts)
    else if p == 63 then (tokenize ps).map (fun ts => GTok.anyc :: ts)
    else if p == 91 then
      if hct : (classTokens (negSplit ps).2 true).isSome then
        (tokenize ((classTokens (negSplit ps).2 true).get hct).2).map
          (fun ts => GTok.cls (negSplit ps).1 ((classTokens (negSplit ps).2 true).get hct).1 :: ts)
      else none
    else (tokenize ps).map (fun ts => GTok.lit p :: ts)
termination_by l.length
decreasing_by
  · simp only [List.length_cons]; omega
  · simp only [List.length_cons]; omega
  · have hsome : classTokens (negSplit t).2 true =
        some ((classTokens (negSplit t).2 true).get hct) := (Option.some_get hct).symm
    have h1 := classTokens_some_length hsome
    have h2 := negSplit_snd_length t
    simp only [Option.get] at h1 ⊢
    simp only [List.length_cons]
    omega
  · simp only [List.length_cons]; omega

/-- The language of a token list: `GMatch es s` holds when the tokens
consume the string `s` entirely. -/
inductive GMatch : List GTok → List Nat → Prop where
  | nil : GMatch [] []
  | lit {b : Nat} {es : List GTok} {ns : List Nat} :
      GMatch es ns → GMatch (GTok.lit b :: es) (b :: ns)
  | anyc {b : Nat} {es : List GTok} {ns : List Nat} :
      GMatch es ns → GMatch (GTok.anyc :: es) (b :: ns)
  | cls {neg : Bool} {rs : List (Nat × Nat)} {b : Nat} {es : List GTok}
      {ns : List Nat} :
      clsHolds neg rs b = true → GMatch es ns →
      GMatch (GTok.cls neg rs :: es) (b :: ns)
  | star_skip {es : List GTok} {ns : List Nat} :
      GMatch es ns → GMatch (GTok.star :: es) ns
  | star_cons {b : Nat} {es : List GTok} {ns : List Nat} :
      GMatch (GTok.star :: es) ns → GMatch (GTok.star :: es) (b :: ns)

theorem GMatch_nil_iff (ns : List Nat) : GMatch [] ns ↔ ns = [] := by
  constructor
  · intro h
    cases h
    rfl
  · rintro rfl
    exact GMatch.nil

theorem GMatch_lit_iff (b : Nat) (es : List GTok) (ns : List Nat) :
    GMatch (GTok.lit b :: es) ns ↔ ∃ ns2, ns = b :: ns2 ∧ GMatch es ns2 := by
  constructor
  · intro h
    cases h with
    | lit h2 => exact ⟨_, rfl, h2⟩
  · rintro ⟨ns2, rfl, h2⟩
    exact GMatch.lit h2

theorem GMatch_anyc_iff (es : List GTok) (ns : List Nat) :
    GMatch (GTok.anyc :: es) ns ↔ ∃ b ns2, ns = b :: ns2 ∧ GMatch es ns2 := by
  constructor
  · intro h
    cases h with
    | anyc h2 => exact ⟨_, _, rfl, h2⟩
  · rintro ⟨b, ns2, rfl, h2⟩
    exact GMatch.anyc h2

theorem GMatch_cls_iff (neg : Bool) (rs : List (Nat × Nat)) (es : List GTok)
    (ns : List Nat) :
    GMatch (GTok.cls neg rs :: es) ns ↔
      ∃ b ns2, ns = b :: ns2 ∧ clsHolds neg rs b = true ∧ GMatch es ns2 := by
  constructor
  · intro h
    cases h with
    | cls hb h2 => exact ⟨_, _, rfl, hb, h2⟩
  · rintro ⟨b, ns2, rfl, hb, h2⟩
    exact GMatch.cls hb h2

/-- A `*` token matches by dropping any number of leading bytes. -/
theorem GMatch_star_iff (es : List GTok) (ns : List Nat) :
    GMatch (GTok.star :: es) ns ↔ ∃ k, k ≤ ns.length ∧ GMatch es (ns.drop k) := by
  constructor
  · intro h
    induction ns with
    | nil =>
      cases h with
      | star_skip h2 => exact ⟨0, by simp, h2⟩
    | cons b ns2 ih =>
      cases h with
      | star_skip h2 => exact ⟨0, by simp, h2⟩
      | star_cons h2 =>
        obtain ⟨k, hk, hm⟩ := ih h2
        exact ⟨k + 1, by simp; omega, hm⟩
  · rintro ⟨k, hk, hm⟩
    induction k generalizing ns with
    | zero => exact GMatch.star_skip hm
    | succ k ih =>
      cases ns with
      | nil => simp at hk
      | cons b ns2 =>
        refine GMatch.star_cons (ih ns2 ?_ ?_)
        · simp at hk; omega
        · simpa using hm

theorem GMatch_replicate_star_nil (j : Nat) :
    GMatch (List.replicate j GTok.star) [] := by
  induction j with
  | zero => exact GMatch.nil
  | succ j ih => exact GMatch.star_skip ih

theorem GMatch_star_replicate (j : Nat) (ns : List Nat) :
    GMatch (GTok.star :: List.replicate j GTok.star) ns := by
  induction ns with
  | nil => exact GMatch.star_skip (GMatch_replicate_star_nil j)
  | cons b ns2 ih => exact GMatch.star_cons ih

theorem tokenize_replicate_append (j : Nat) (l : List Nat) :
    tokenize (List.replicate j 42 ++ l) =
      (tokenize l).map (fun es => List.replicate j GTok.star ++ es) := by
  induction j with
  | zero =>
    simp only [List.replicate, List.nil_append]
    cases tokenize l <;> simp
  | succ j ih =>
    rw [List.replicate_succ, List.cons_append]
    rw [tokenize]
    simp only [show ((42 : Nat) == 42) = true from rfl, if_true]
    rw [ih]
    cases tokenize l <;> simp [List.replicate_succ]

theorem dropWhile_star_decomp (l : List Nat) :
    ∃ j, l = List.replicate j 42 ++ l.dropWhile (fun b => b == 42) := by
  refine ⟨(l.takeWhile (fun b => b == 42)).length, ?_⟩
  have h1 : l.takeWhile (fun b => b == 42) =
      List.replicate (l.takeWhile (fun b => b == 42)).length 42 := by
    apply List.eq_replicate_of_mem
    intro b hb
    have := List.mem_takeWhile_imp hb
    simpa using this
  conv_lhs => rw [← List.takeWhile_append_dropWhile (p := fun b => b == 42) (l := l)]
  rw [← h1]

theorem GMatch_replicate_star_append (j : Nat) (hj : 1 ≤ j) (es : List GTok)
    (ns : List Nat) :
    GMatch (List.replicate j GTok.star ++ es) ns ↔
      ∃ k, k ≤ ns.length ∧ GMatch es (ns.drop k) := by
  induction j generalizing ns with
  | zero => omega
  | succ j ih =>
    rw [List.replicate_succ, List.cons_append, GMatch_star_iff]
    by_cases hj0 : 1 ≤ j
    · constructor
      · rintro ⟨k, hk, hm⟩
        obtain ⟨k2, hk2, hm2⟩ := (ih hj0 (ns.drop k)).mp hm
        refine ⟨k2 + k, ?_, ?_⟩
        · simp only [List.length_drop] at hk2
          omega
        · rwa [List.drop_drop, Nat.add_comm k k2] at hm2
      · rintro ⟨k, hk, hm⟩
        refine ⟨k, hk, (ih hj0 (ns.drop k)).mpr ⟨0, by simp, by simpa using hm⟩⟩
    · have hj' : j = 0 := by omega
      subst hj'
      simp only [List.replicate, List.nil_append]

/-- Main equivalence: the byte matcher accepts exactly the language of the
tokenised pattern (which consumes the whole string by construction). -/
theorem matchesFuel_iff_tokenize :
    ∀ (n : Nat) (ps : List Nat), ps.length ≤ n → ∀ (ns : List Nat),
      (matchesFuel (ps.length + 1) ps ns = true ↔
        ∃ es, tokenize ps = some es ∧ GMatch es ns) := by
  intro n
  induction n with
  | zero =>
    intro ps hps ns
    have hnil : ps = [] := by
      cases ps
      · rfl
      · simp at hps
    subst hnil
    rw [matchesFuel, tokenize]
    simp [GMatch_nil_iff, List.isEmpty_iff]
  | succ n ih =>
    intro ps hps ns
    cases ps with
    | nil =>
      rw [matchesFuel, tokenize]
      simp [GMatch_nil_iff, List.isEmpty_iff]
    | cons p ps =>
      have hlen : ps.length ≤ n := by
        simp only [List.length_cons] at hps
        omega
      simp only [List.length_cons]
      by_cases h42 : (p == 42) = true
      · -- star branch
        have hp : p = 42 := by simpa using h42
        subst hp
        obtain ⟨j, hdecomp⟩ := dropWhile_star_decomp ps
        have htok : tokenize (42 :: ps) =
            (tokenize (ps.dropWhile (fun b => b == 42))).map
              (fun es => GTok.star :: (List.replicate j GTok.star ++ es)) := by
          rw [tokenize]
          simp only [beq_self_eq_true, if_true]
          conv_lhs => rw [hdecomp, tokenize_replicate_append]
          cases tokenize (ps.dropWhile (fun b => b == 42)) <;> simp
        simp only [matchesFuel]
        simp only [beq_self_eq_true, if_true]
        by_cases hemp : (ps.dropWhile (fun b => b == 42)).isEmpty
        · simp only [hemp, if_true]
          have hps2 : ps.dropWhile (fun b => b == 42) = [] :=
            List.isEmpty_iff.mp hemp
          rw [hps2] at htok
          rw [tokenize] at htok
          simp only [Option.map_some'] at htok
          constructor
          · intro _
            refine ⟨_, htok, ?_⟩
            simpa using GMatch_star_replicate j ns
          · intro _
            trivial
        · simp only [hemp, if_false, Bool.false_eq_true]
          have hlen2 : (ps.dropWhile (fun b => b == 42)).length ≤ ps.length :=
            (List.dropWhile_suffix _).length_le
          have hcongr : ∀ k, matchesFuel (ps.length + 1)
              (ps.dropWhile (fun b => b == 42)) (ns.drop k) =
              matchesFuel ((ps.dropWhile (fun b => b == 42)).length + 1)
                (ps.dropWhile (fun b => b == 42)) (ns.drop k) := by
            intro k
            exact matchesFuel_congr _ _ _ _ (by omega) (by omega)
          cases htk : tokenize (ps.dropWhile (fun b => b == 42)) with
          | none =>
            rw [htk] at htok
            simp only [Option.map_none'] at htok
            rw [htok]
            constructor
            · intro hany
              exfalso
              rw [List.any_eq_true] at hany
              obtain ⟨k, _, hk⟩ := hany
              rw [hcongr k] at hk
              have := (ih (ps.dropWhile (fun b => b == 42)) (by omega) (ns.drop k)).mp hk
              obtain ⟨es, hes, _⟩ := this
              rw [htk] at hes
              exact Option.noConfusion hes
            · rintro ⟨es, hes, _⟩
              exact Option.noConfusion hes
          | some es2 =>
            rw [htk] at htok
            simp only [Option.map_some'] at htok
            rw [htok]
            have hsem : ∀ k, matchesFuel ((ps.dropWhile (fun b => b == 42)).length + 1)
                (ps.dropWhile (fun b => b == 42)) (ns.drop k) = true ↔
                GMatch es2 (ns.drop k) := by
              intro k
              rw [ih (ps.dropWhile (fun b => b == 42)) (by omega) (ns.drop k)]
              constructor
              · rintro ⟨es, hes, hm⟩
                rw [htk] at hes
                cases hes
                exact hm
              · intro hm
                exact ⟨es2, htk, hm⟩
            constructor
            · intro hany
              rw [List.any_eq_true] at hany
              obtain ⟨k, hkmem, hk⟩ := hany
              rw [hcongr k, hsem k] at hk
              refine ⟨_, rfl, ?_⟩
              have : GTok.star :: (List.replicate j GTok.star ++ es2) =
                  List.replicate (j + 1) GTok.star ++ es2 := by
                rw [List.replicate_succ, List.cons_append]
              rw [this, GMatch_replicate_star_append (j + 1) (by omega)]
              refine ⟨k, ?_, hk⟩
              simp only [List.mem_range] at hkmem
              omega
            · rintro ⟨es, hes, hm⟩
              cases hes
              have : GTok.star :: (List.replicate j GTok.star ++ es2) =
                  List.replicate (j + 1) GTok.star ++ es2 := by
                rw [List.replicate_succ, List.cons_append]
              rw [this, GMatch_replicate_star_append (j + 1) (by omega)] at hm
              obtain ⟨k, hk, hm2⟩ := hm
              rw [List.any_eq_true]
              refine ⟨k, by simp only [List.mem_range]; omega, ?_⟩
              rw [hcongr k, hsem k]
              exact hm2
      · by_cases h63 : (p == 63) = true
        · -- question-mark branch
          have hp : p = 63 := by simpa using h63
          subst hp
          simp only [matchesFuel]
          rw [tokenize]
          simp only [h42, if_false, Bool.false_eq_true, beq_self_eq_true, if_true]
          cases ns with
          | nil =>
            constructor
            · intro h
              exact absurd h (by simp)
            · rintro ⟨es, hes, hm⟩
              cases htk : tokenize ps with
              | none =>
                rw [htk] at hes
                exact Option.noConfusion hes
              | some es' =>
                rw [htk] at hes
                simp only [Option.map_some'] at hes
                cases hes
                rw [GMatch_anyc_iff] at hm
                obtain ⟨b, ns2, hcons, _⟩ := hm
                exact List.noConfusion hcons
          | cons b ns2 =>
            rw [ih ps (by omega) ns2]
            cases htk : tokenize ps with
            | none =>
              simp only [Option.map_none']
              constructor
              · rintro ⟨es, hes, _⟩
                exact Option.noConfusion hes
              · rintro ⟨es, hes, _⟩
                exact Option.noConfusion hes
            | some es' =>
              simp only [Option.map_some']
              constructor
              · rintro ⟨es, hes, hm⟩
                cases hes
                exact ⟨_, rfl, GMatch.anyc hm⟩
              · rintro ⟨es, hes, hm⟩
                cases hes
                rw [GMatch_anyc_iff] at hm
                obtain ⟨b', ns2', hcons, hm2⟩ := hm
                cases hcons
                exact ⟨es', rfl, hm2⟩
        · by_cases h91 : (p == 91) = true
          · -- bracket branch
            have hp : p = 91 := by simpa using h91
            subst hp
            simp only [matchesFuel]
            rw [tokenize]
            simp only [h42, h63, if_false, Bool.false_eq_true, beq_self_eq_true,
              if_true]
            cases hct : classTokens (negSplit ps).2 true with
            | none =>
              rw [dif_neg (by simp)]
              cases ns with
              | nil =>
                constructor
                · intro h
                  exact absurd h (by simp)
                · rintro ⟨es, hes, _⟩
                  exact Option.noConfusion hes
              | cons ch ns2 =>
                try simp only []
                rw [classScan_eq_classTokens, hct]
                simp only [Option.map_none']
                constructor
                · intro h
                  exact absurd h (by simp)
                · rintro ⟨es, hes, _⟩
                  exact Option.noConfusion hes
            | some pr =>
              obtain ⟨rs, rest⟩ := pr
              have hrest : rest.length ≤ ps.length := by
                have h1 := classTokens_some_length hct
                have h2 := negSplit_snd_length ps
                omega
              rw [dif_pos (by simp)]
              simp only [Option.get_some]
              cases ns with
              | nil =>
                constructor
                · intro h
                  exact absurd h (by simp)
                · rintro ⟨es, hes, hm⟩
                  cases htk : tokenize rest with
                  | none =>
                    rw [htk] at hes
                    exact Option.noConfusion hes
                  | some es' =>
                    rw [htk] at hes
                    simp only [Option.map_some'] at hes
                    cases hes
                    rw [GMatch_cls_iff] at hm
                    obtain ⟨b, ns2, hcons, _, _⟩ := hm
                    exact List.noConfusion hcons
              | cons ch ns2 =>
                try simp only []
                rw [classScan_eq_classTokens, hct]
                simp only [Option.map_some', Bool.false_or]
                have hcongr : matchesFuel (ps.length + 1) rest ns2 =
                    matchesFuel (rest.length + 1) rest ns2 :=
                  matchesFuel_congr _ _ _ _ (by omega) (by omega)
                cases htk : tokenize rest with
                | none =>
                  simp only [Option.map_none']
                  constructor
                  · intro h
                    by_cases hcl : (if (negSplit ps).1 then !(rs.any (rangeHolds ch))
                        else rs.any (rangeHolds ch)) = true
                    · rw [if_pos hcl] at h
                      rw [hcongr] at h
                      obtain ⟨es, hes, _⟩ := (ih rest (by omega) ns2).mp h
                      rw [htk] at hes
                      exact absurd hes (by simp)
                    · rw [if_neg hcl] at h
                      exact absurd h (by simp)
                  · rintro ⟨es, hes, _⟩
                    exact Option.noConfusion hes
                | some es' =>
                  simp only [Option.map_some']
                  constructor
                  · intro h
                    by_cases hcl : (if (negSplit ps).1 then !(rs.any (rangeHolds ch))
                        else rs.any (rangeHolds ch)) = true
                    · rw [if_pos hcl] at h
                      rw [hcongr] at h
                      obtain ⟨es, hes, hm⟩ := (ih rest (by omega) ns2).mp h
                      rw [htk] at hes
                      cases hes
                      refine ⟨_, rfl, GMatch.cls ?_ hm⟩
                      simpa [clsHolds] using hcl
                    · rw [if_neg hcl] at h
                      exact absurd h (by simp)
                  · rintro ⟨es, hes, hm⟩
                    cases hes
                    rw [GMatch_cls_iff] at hm
                    obtain ⟨b, ns2', hcons, hcls, hm2⟩ := hm
                    cases hcons
                    have hcl : (if (negSplit ps).1 then !(rs.any (rangeHolds ch))
                        else rs.any (rangeHolds ch)) = true := by
                      simpa [clsHolds] using hcls
                    rw [if_pos hcl, hcongr]
                    exact (ih rest (by omega) ns2).mpr ⟨es', htk, hm2⟩
          · -- literal branch
            simp only [matchesFuel]
            rw [tokenize]
            simp only [h42, h63, h91, if_false, Bool.false_eq_true]
            cases ns with
            | nil =>
              constructor
              · intro h
                exact absurd h (by simp)
              · rintro ⟨es, hes, hm⟩
                cases htk : tokenize ps with
                | none =>
                  rw [htk] at hes
                  exact Option.noConfusion hes
                | some es' =>
                  rw [htk] at hes
                  simp only [Option.map_some'] at hes
                  cases hes
                  rw [GMatch_lit_iff] at hm
                  obtain ⟨ns2, hcons, _⟩ := hm
                  exact List.noConfusion hcons
            | cons c ns2 =>
              try simp only []
              cases htk : tokenize ps with
              | none =>
                simp only [Option.map_none']
                constructor
                · intro h
                  by_cases hc : (c == p) = true
                  · rw [if_pos hc] at h
                    obtain ⟨es, hes, _⟩ := (ih ps (by omega) ns2).mp h
                    rw [htk] at hes
                    exact absurd hes (by simp)
                  · rw [if_neg hc] at h
                    exact absurd h (by simp)
                · rintro ⟨es, hes, _⟩
                  exact Option.noConfusion hes
              | some es' =>
                simp only [Option.map_some']
                constructor
                · intro h
                  by_cases hc : (c == p) = true
                  · rw [if_pos hc] at h
                    obtain ⟨es, hes, hm⟩ := (ih ps (by omega) ns2).mp h
                    rw [htk] at hes
                    cases hes
                    have : c = p := by simpa using hc
                    subst this
                    exact ⟨_, rfl, GMatch.lit hm⟩
                  · rw [if_neg hc] at h
                    exact absurd h (by simp)
                · rintro ⟨es, hes, hm⟩
                  cases hes
                  rw [GMatch_lit_iff] at hm
                  obtain ⟨ns2', hcons, hm2⟩ := hm
                  injection hcons with hcp1 hcp2
                  subst hcp1
                  subst hcp2
                  rw [if_pos (by simp)]
                  exact (ih ps (by omega) ns2).mpr ⟨es', htk, hm2⟩

theorem matches_pattern_no_meta :
    ∀ (p s : List Nat), has_glob_chars p = false →
      (matches_pattern p s = true ↔ p = s) := by
  intro p
  induction p with
  | nil =>
    intro s _
    rw [matches_pattern, matchesFuel]
    rw [List.isEmpty_iff]
    exact eq_comm
  | cons b ps ih =>
    intro s hng
    simp only [has_glob_chars, List.any_cons, Bool.or_eq_false_iff] at hng
    obtain ⟨⟨⟨hb42, hb63⟩, hb91⟩, hrest⟩ := hng
    rw [matches_pattern]
    simp only [List.length_cons]
    simp only [matchesFuel]
    simp only [hb42, hb63, hb91, if_false, Bool.false_eq_true]
    cases s with
    | nil =>
      simp
    | cons c s2 =>
      by_cases hc : (c == b) = true
      · simp only [hc, if_true]
        have hcb : c = b := by simpa using hc
        subst hcb
        rw [show matchesFuel (ps.length + 1) ps s2 = matches_pattern ps s2 from rfl]
        rw [ih s2 hrest]
        constructor
        · intro h
          rw [h]
        · intro h
          injection h
      · simp only [hc, if_false, Bool.false_eq_true]
        have hcb : ¬(c = b) := by simpa using hc
        constructor
        · intro h
          exact absurd h (by simp)
        · intro h
          injection h with h1 _
          exact absurd h1.symm hcb

/-- C7: the glob matcher is anchored.  `matches_pattern p s` accepts
exactly when the tokenised pattern matches (consumes) all of `s` — the
semantics `GMatch` can only succeed by consuming the entire string (its
base case requires the empty string) — and in particular a pattern with
no glob metacharacters matches only the identical string. -/
theorem matches_pattern_anchored (p s : List Nat) :
    (matches_pattern p s = true ↔ ∃ es, tokenize p = some es ∧ GMatch es s) ∧
    (has_glob_chars p = false → (matches_pattern p s = true ↔ p = s)) :=
  ⟨matchesFuel_iff_tokenize p.length p (Nat.le_refl _) s,
   matches_pattern_no_meta p s⟩

/-- Witness for C7 at the literal pattern "ab" against the string "ab". -/
theorem matches_pattern_anchored_witness :
    (matches_pattern [97, 98] [97, 98] = true ↔
      ∃ es, tokenize [97, 98] = some es ∧ GMatch es [97, 98]) ∧
    (matches_pattern [97, 98] [97, 98] = true ↔ ([97, 98] : List Nat) = [97, 98]) :=
  ⟨(matches_pattern_anchored [97, 98] [97, 98]).1,
   (matches_pattern_anchored [97, 98] [97, 98]).2 (by decide)⟩

/-! ## Parameter-expansion pattern stripping (src/parser.rs)

`${var#pat}`, `${var##pat}`, `${var%pat}`, `${var%%pat}` are dispatched by
`expand_braced_param` to the four strip functions below (src/parser.rs
lines 496-511).  Each scans the byte positions `0..=val.len()`, skips
positions that are not UTF-8 character boundaries (`continue`), and
returns at the first matching position; the scan direction decides
shortest against longest. -/

/-- Model of Rust `str::is_char_boundary` on a UTF-8 byte list: position
0, the length, or a byte that is not a continuation byte (`b as i8 >=
-0x40`, i.e. `b < 0x80 || b >= 0xC0`). -/
def is_char_boundary (v : List Nat) (i : Nat) : Bool :=
  if i == 0 then true
  else
    match v[i]? with
    | none => i == v.length
    | some b => decide (b < 128 ∨ 192 ≤ b)

/-- Embeds `strip_prefix_shortest` from src/parser.rs: first (smallest)
boundary position `end` with `matches_pattern(pattern, &val[..end])`,
returning `val[end..]`; `val` unchanged when no position matches. -/
def strip_prefix_shortest (val pattern : List Nat) : List Nat :=
  match (List.range (val.length + 1)).find?
      (fun e => is_char_boundary val e && matches_pattern pattern (val.take e)) with
  | some e => val.drop e
  | none => val

/-- Embeds `strip_prefix_longest` from src/parser.rs (descending scan). -/
def strip_prefix_longest (val pattern : List Nat) : List Nat :=
  match (List.range (val.length + 1)).reverse.find?
      (fun e => is_char_boundary val e && matches_pattern pattern (val.take e)) with
  | some e => val.drop e
  | none => val

/-- Embeds `strip_suffix_shortest` from src/parser.rs: first (largest)
boundary position `start` in descending order with
`matches_pattern(pattern, &val[start..])`, returning `val[..start]`. -/
def strip_suffix_shortest (val pattern : List Nat) : List Nat :=
  match (List.range (val.length + 1)).reverse.find?
      (fun st => is_char_boundary val st && matches_pattern pattern (val.drop st)) with
  | some st => val.take st
  | none => val

/-- Embeds `strip_suffix_longest` from src/parser.rs (ascending scan). -/
def strip_suffix_longest (val pattern : List Nat) : List Nat :=
  match (List.range (val.length + 1)).find?
      (fun st => is_char_boundary val st && matches_pattern pattern (val.drop st)) with
  | some st => val.take st
  | none => val

/-- `find?` over an ascending range returns the least satisfying index. -/
theorem find_range'_asc (p : Nat → Bool) :
    ∀ (n s : Nat),
      (∀ e, (List.range' s n).find? p = some e →
        s ≤ e ∧ e < s + n ∧ p e = true ∧ ∀ y, s ≤ y → y < e → p y = false) ∧
      ((List.range' s n).find? p = none → ∀ y, s ≤ y → y < s + n → p y = false) := by
  intro n
  induction n with
  | zero =>
    intro s
    constructor
    · intro e he
      simp [List.range'] at he
    · intro _ y hy1 hy2
      omega
  | succ n ih =>
    intro s
    have hr : List.range' s (n + 1) = s :: List.range' (s + 1) n := by
      rw [List.range'_succ]
    constructor
    · intro e he
      rw [hr] at he
      by_cases hp : p s = true
      · rw [List.find?_cons_of_pos _ hp] at he
        cases he
        exact ⟨Nat.le_refl _, by omega, hp, fun y hy1 hy2 => by omega⟩
      · rw [List.find?_cons_of_neg _ (by simpa using hp)] at he
        obtain ⟨h1, h2, h3, h4⟩ := (ih (s + 1)).1 e he
        refine ⟨by omega, by omega, h3, fun y hy1 hy2 => ?_⟩
        by_cases hys : y = s
        · subst hys
          simpa using hp
        · exact h4 y (by omega) hy2
    · intro he y hy1 hy2
      rw [hr] at he
      by_cases hp : p s = true
      · rw [List.find?_cons_of_pos _ hp] at he
        exact Option.noConfusion he
      · rw [List.find?_cons_of_neg _ (by simpa using hp)] at he
        by_cases hys : y = s
        · subst hys
          simpa using hp
        · exact (ih (s + 1)).2 he y (by omega) (by omega)

/-- `find?` over a descending range returns the greatest satisfying
index. -/
theorem find_range_desc (p : Nat → Bool) :
    ∀ (n : Nat),
      (∀ e, (List.range n).reverse.find? p = some e →
        e < n ∧ p e = true ∧ ∀ y, e < y → y < n → p y = false) ∧
      ((List.range n).reverse.find? p = none → ∀ y, y < n → p y = false) := by
  intro n
  induction n with
  | zero =>
    constructor
    · intro e he
      simp at he
    · intro _ y hy
      omega
  | succ n ih =>
    have hr : (List.range (n + 1)).reverse = n :: (List.range n).reverse := by
      rw [List.range_succ, List.reverse_append]
      simp
    constructor
    · intro e he
      rw [hr] at he
      by_cases hp : p n = true
      · rw [List.find?_cons_of_pos _ hp] at he
        cases he
        exact ⟨by omega, hp, fun y hy1 hy2 => by omega⟩
      · rw [List.find?_cons_of_neg _ (by simpa using hp)] at he
        obtain ⟨h1, h2, h3⟩ := ih.1 e he
        refine ⟨by omega, h2, fun y hy1 hy2 => ?_⟩
        by_cases hyn : y = n
        · subst hyn
          simpa using hp
        · exact h3 y hy1 (by omega)
    · intro he y hy
      rw [hr] at he
      by_cases hp : p n = true
      · rw [List.find?_cons_of_pos _ hp] at he
        exact Option.noConfusion he
      · rw [List.find?_cons_of_neg _ (by simpa using hp)] at he
        by_cases hyn : y = n
        · subst hyn
          simpa using hp
        · exact ih.2 he y (by omega)

theorem find_range_asc (p : Nat → Bool) (n : Nat) :
    (∀ e, (List.range n).find? p = some e →
      e < n ∧ p e = true ∧ ∀ y, y < e → p y = false) ∧
    ((List.range n).find? p = none → ∀ y, y < n → p y = false) := by
  have h := find_range'_asc p n 0
  rw [List.range_eq_range'] at *
  constructor
  · intro e he
    obtain ⟨_, h2, h3, h4⟩ := h.1 e he
    exact ⟨by omega, h3, fun y hy => h4 y (by omega) hy⟩
  · intro he y hy
    exact h.2 he y (by omega) (by omega)

/-- The spec-side description of `${var#pat}`: the output is `val` with
its shortest pattern-matched prefix removed — the cut position is a
character boundary, the cut prefix matches, no shorter boundary prefix
matches, and when no boundary prefix matches at all the value is
returned unchanged. -/
def RemovesShortestMatchedPrefix (val pat out : List Nat) : Prop :=
  (∃ e, e ≤ val.length ∧ is_char_boundary val e = true ∧
    matches_pattern pat (val.take e) = true ∧ out = val.drop e ∧
    ∀ e2, e2 < e → is_char_boundary val e2 = true →
      matches_pattern pat (val.take e2) = false) ∨
  ((∀ e, e ≤ val.length → is_char_boundary val e = true →
    matches_pattern pat (val.take e) = false) ∧ out = val)

/-- The spec-side description of `${var##pat}`: longest matched prefix
removed. -/
def RemovesLongestMatchedPrefix (val pat out : List Nat) : Prop :=
  (∃ e, e ≤ val.length ∧ is_char_boundary val e = true ∧
    matches_pattern pat (val.take e) = true ∧ out = val.drop e ∧
    ∀ e2, e < e2 → e2 ≤ val.length → is_char_boundary val e2 = true →
      matches_pattern pat (val.take e2) = false) ∨
  ((∀ e, e ≤ val.length → is_char_boundary val e = true →
    matches_pattern pat (val.take e) = false) ∧ out = val)

/-- The spec-side description of `${var%pat}`: shortest matched suffix
removed (the suffix starting at position `st` is `val[st..]`; shortest
means greatest `st`). -/
def RemovesShortestMatchedSuffix (val pat out : List Nat) : Prop :=
  (∃ st, st ≤ val.length ∧ is_char_boundary val st = true ∧
    matches_pattern pat (val.drop st) = true ∧ out = val.take st ∧
    ∀ st2, st < st2 → st2 ≤ val.length → is_char_boundary val st2 = true →
      matches_pattern pat (val.drop st2) = false) ∨
  ((∀ st, st ≤ val.length → is_char_boundary val st = true →
    matches_pattern pat (val.drop st) = false) ∧ out = val)

/-- The spec-side description of `${var%%pat}`: longest matched suffix
removed (least `st`). -/
def RemovesLongestMatchedSuffix (val pat out : List Nat) : Prop :=
  (∃ st, st ≤ val.length ∧ is_char_boundary val st = true ∧
    matches_pattern pat (val.drop st) = true ∧ out = val.take st ∧
    ∀ st2, st2 < st → is_char_boundary val st2 = true →
      matches_pattern pat (val.drop st2) = false) ∨
  ((∀ st, st ≤ val.length → is_char_boundary val st = true →
    matches_pattern pat (val.drop st) = false) ∧ out = val)

/-- C5: the four `${var#pat}` / `${var##pat}` / `${var%pat}` /
`${var%%pat}` strip operations remove the shortest/longest
glob-matched prefix/suffix of the value, scanning codepoint-boundary
positions, and in particular on `val = "hello.tar.gz"`:
`${var%.*}` yields `"hello.tar"`, `${var%%.*}` yields `"hello"`, and
`${var##*.}` yields `"gz"` (byte lists for the ASCII strings). -/
theorem strip_ops_shortest_longest (val pat : List Nat) :
    RemovesShortestMatchedPrefix val pat (strip_prefix_shortest val pat) ∧
    RemovesLongestMatchedPrefix val pat (strip_prefix_longest val pat) ∧
    RemovesShortestMatchedSuffix val pat (strip_suffix_shortest val pat) ∧
    RemovesLongestMatchedSuffix val pat (strip_suffix_longest val pat) ∧
    strip_suffix_shortest [104,101,108,108,111,46,116,97,114,46,103,122] [46,42] =
      [104,101,108,108,111,46,116,97,114] ∧
    strip_suffix_longest [104,101,108,108,111,46,116,97,114,46,103,122] [46,42] =
      [104,101,108,108,111] ∧
    strip_prefix_longest [104,101,108,108,111,46,116,97,114,46,103,122] [42,46] =
      [103,122] := by
  refine ⟨?_, ?_, ?_, ?_, by decide, by decide, by decide⟩
  · rw [RemovesShortestMatchedPrefix, strip_prefix_shortest]
    cases hf : (List.range (val.length + 1)).find?
        (fun e => is_char_boundary val e && matches_pattern pat (val.take e)) with
    | some e =>
      left
      obtain ⟨h1, h2, h3⟩ := (find_range_asc _ _).1 e hf
      rw [Bool.and_eq_true] at h2
      refine ⟨e, by omega, h2.1, h2.2, rfl, fun e2 he2 hb => ?_⟩
      have := h3 e2 he2
      rw [Bool.and_eq_false_iff] at this
      rcases this with h | h
      · exact absurd hb (by simp [h])
      · exact h
    | none =>
      right
      refine ⟨fun e he hb => ?_, rfl⟩
      have := (find_range_asc _ _).2 hf e (by omega)
      rw [Bool.and_eq_false_iff] at this
      rcases this with h | h
      · exact absurd hb (by simp [h])
      · exact h
  · rw [RemovesLongestMatchedPrefix, strip_prefix_longest]
    cases hf : (List.range (val.length + 1)).reverse.find?
        (fun e => is_char_boundary val e && matches_pattern pat (val.take e)) with
    | some e =>
      left
      obtain ⟨h1, h2, h3⟩ := (find_range_desc _ _).1 e hf
      rw [Bool.and_eq_true] at h2
      refine ⟨e, by omega, h2.1, h2.2, rfl, fun e2 hlt hle hb => ?_⟩
      have := h3 e2 hlt (by omega)
      rw [Bool.and_eq_false_iff] at this
      rcases this with h | h
      · exact absurd hb (by simp [h])
      · exact h
    | none =>
      right
      refine ⟨fun e he hb => ?_, rfl⟩
      have := (find_range_desc _ _).2 hf e (by omega)
      rw [Bool.and_eq_false_iff] at this
      rcases this with h | h
      · exact absurd hb (by simp [h])
      · exact h
  · rw [RemovesShortestMatchedSuffix, strip_suffix_shortest]
    cases hf : (List.range (val.length + 1)).reverse.find?
        (fun st => is_char_boundary val st && matches_pattern pat (val.drop st)) with
    | some st =>
      left
      obtain ⟨h1, h2, h3⟩ := (find_range_desc _ _).1 st hf
      rw [Bool.and_eq_true] at h2
      refine ⟨st, by omega, h2.1, h2.2, rfl, fun st2 hlt hle hb => ?_⟩
      have := h3 st2 hlt (by omega)
      rw [Bool.and_eq_false_iff] at this
      rcases this with h | h
      · exact absurd hb (by simp [h])
      · exact h
    | none =>
      right
      refine ⟨fun st hst hb => ?_, rfl⟩
      have := (find_range_desc _ _).2 hf st (by omega)
      rw [Bool.and_eq_false_iff] at this
      rcases this with h | h
      · exact absurd hb (by simp [h])
      · exact h
  · rw [RemovesLongestMatchedSuffix, strip_suffix_longest]
    cases hf : (List.range (val.length + 1)).find?
        (fun st => is_char_boundary val st && matches_pattern pat (val.drop st)) with
    | some st =>
      left
      obtain ⟨h1, h2, h3⟩ := (find_range_asc _ _).1 st hf
      rw [Bool.and_eq_true] at h2
      refine ⟨st, by omega, h2.1, h2.2, rfl, fun st2 hlt hb => ?_⟩
      have := h3 st2 hlt
      rw [Bool.and_eq_false_iff] at this
      rcases this with h | h
      · exact absurd hb (by simp [h])
      · exact h
    | none =>
      right
      refine ⟨fun st hst hb => ?_, rfl⟩
      have := (find_range_asc _ _).2 hf st (by omega)
      rw [Bool.and_eq_false_iff] at this
      rcases this with h | h
      · exact absurd hb (by simp [h])
      · exact h

/-! ## Jobs and the job table (src/job.rs)

`pid_t` and raw `waitpid` statuses are `i32`; they are modelled as `Int`.
The libc wait-status macros (glibc, Linux) are modelled with
floor-division and Euclidean remainder, which agree with arithmetic
shift and bit masking on two's-complement integers:
`WIFEXITED(s) = ((s & 0x7f) == 0)`, `WIFSTOPPED(s) = ((s & 0xff) == 0x7f)`,
`WIFSIGNALED(s)` holds when the low 7 bits are neither 0 nor 0x7f,
`WEXITSTATUS(s) = (s >> 8) & 0xff`, `WTERMSIG(s) = s & 0x7f`. -/

def WIFEXITED (s : Int) : Bool := decide (s.emod 128 = 0)

def WIFSTOPPED (s : Int) : Bool := decide (s.emod 256 = 127)

def WIFSIGNALED (s : Int) : Bool :=
  decide (s.emod 128 ≠ 0 ∧ s.emod 128 ≠ 127)

def WEXITSTATUS (s : Int) : Int := (s.fdiv 256).emod 256

def WTERMSIG (s : Int) : Int := s.emod 128

/-- Embeds `JobProcess` from src/job.rs. -/
structure JobProcess where
  pid : Int
  completed : Bool
  stopped : Bool
  status : Int
deriving DecidableEq

/-- Embeds `JobStatus` from src/job.rs. -/
inductive JobStatus where
  | Running
  | Stopped
  | Done (code : Int)
deriving DecidableEq

/-- Embeds `Job` from src/job.rs. -/
structure Job where
  id : Nat
  pgid : Int
  command : String
  processes : List JobProcess
  notified : Bool

/-- Default used to model the `unwrap()` on the last process: the Rust
code panics on an empty process list, and the claims about `Job::status`
assume a non-empty list. -/
def defaultProc : JobProcess := ⟨0, false, false, 0⟩

/-- Embeds `Job::status` from src/job.rs: Stopped if any process is
stopped, else Done with the exit code derived from the last process's
raw status if all are completed, else Running. -/
def Job.status (j : Job) : JobStatus :=
  if j.processes.any (fun p => p.stopped) then JobStatus.Stopped
  else if j.processes.all (fun p => p.completed) then
    let last := j.processes.getLast?.getD defaultProc
    let exit_code : Int :=
      if WIFEXITED last.status then WEXITSTATUS last.status
      else if WIFSIGNALED last.status then 128 + WTERMSIG last.status
      else 1
    JobStatus.Done exit_code
  else JobStatus.Running

/-- Embeds `JobTable` from src/job.rs. -/
structure JobTable where
  jobs : List Job
  next_id : Nat

def JobTable.new : JobTable := ⟨[], 1⟩

/-- Embeds the id-search loop of `JobTable::insert`
(`let mut id = 1; loop { if !jobs.any(|j| j.id == id) break; id += 1 }`)
with fuel; fuel `jobs.length + 1` suffices because at most
`jobs.length` ids are in use (`findIdAux_spec` plus `exists_unused_id`
below). -/
def findIdAux (jobs : List Job) : Nat → Nat → Nat
  | 0, id => id
  | fuel + 1, id =>
    if jobs.any (fun j => j.id == id) then findIdAux jobs fuel (id + 1) else id

/-- Embeds `JobTable::insert` from src/job.rs: assigns the smallest
unused id, pushes the new job, bumps `next_id` when needed, and returns
the id. -/
def JobTable.insert (t : JobTable) (pgid : Int) (cmd : String)
    (pids : List Int) : JobTable × Nat :=
  let id := findIdAux t.jobs (t.jobs.length + 1) 1
  let processes := pids.map (fun pid => JobProcess.mk pid false false 0)
  let t2 : JobTable :=
    { t with jobs := t.jobs ++
        [{ id := id, pgid := pgid, command := cmd, processes := processes,
           notified := false }] }
  let t3 : JobTable :=
    if t2.next_id ≤ id then { t2 with next_id := id + 1 } else t2
  (t3, id)

/-- Embeds `JobTable::remove_done` from src/job.rs: retains jobs that
are not (notified ∧ Done). -/
def JobTable.remove_done (t : JobTable) : JobTable :=
  { t with jobs := t.jobs.filter (fun j =>
      !(j.notified && (match j.status with
        | JobStatus.Done _ => true
        | _ => false))) }

/-- Embeds the inner process loop of `JobTable::mark_pid`: updates the
first process with the given pid and stops (`return`); `none` when no
process matches. -/
def markProc (pid raw_status : Int) : List JobProcess → Option (List JobProcess)
  | [] => none
  | p :: rest =>
    if p.pid == pid then
      some ({ p with
                status := raw_status
                stopped := WIFSTOPPED raw_status
                completed := !WIFSTOPPED raw_status } :: rest)
    else (markProc pid raw_status rest).map (fun r => p :: r)

/-- Embeds the outer job loop of `JobTable::mark_pid`. -/
def markJobs (pid raw_status : Int) : List Job → List Job
  | [] => []
  | j :: rest =>
    match markProc pid raw_status j.processes with
    | some ps => { j with processes := ps } :: rest
    | none => j :: markJobs pid raw_status rest

/-- Embeds `JobTable::mark_pid` from src/job.rs. -/
def JobTable.mark_pid (t : JobTable) (pid raw_status : Int) : JobTable :=
  { t with jobs := markJobs pid raw_status t.jobs }

/-- C4: for a job with a non-empty process list the derived status is
Stopped when any process is stopped; Done with the exit code derived
from the last process's raw status when none is stopped and all are
completed (normal exit yields its exit code, termination by signal N
yields 128 + N); and Running otherwise. -/
theorem job_status_derivation (j : Job) (hne : j.processes ≠ []) :
    ((∃ p ∈ j.processes, p.stopped = true) → j.status = JobStatus.Stopped) ∧
    ((∀ p ∈ j.processes, p.stopped = false) →
      (∀ p ∈ j.processes, p.completed = true) →
      (WIFEXITED (j.processes.getLast hne).status = true →
        j.status = JobStatus.Done (WEXITSTATUS (j.processes.getLast hne).status)) ∧
      (WIFSIGNALED (j.processes.getLast hne).status = true →
        j.status = JobStatus.Done (128 + WTERMSIG (j.processes.getLast hne).status))) ∧
    ((∀ p ∈ j.processes, p.stopped = false) →
      (∃ p ∈ j.processes, p.completed = false) → j.status = JobStatus.Running) := by
  have hgl : j.processes.getLast?.getD defaultProc = j.processes.getLast hne := by
    rw [List.getLast?_eq_getLast _ hne]
    rfl
  refine ⟨?_, ?_, ?_⟩
  · rintro ⟨p, hp, hps⟩
    rw [Job.status, if_pos]
    rw [List.any_eq_true]
    exact ⟨p, hp, hps⟩
  · intro hstop hcompl
    have hany : j.processes.any (fun p => p.stopped) = false := by
      rw [List.any_eq_false]
      intro p hp
      simp [hstop p hp]
    have hall : j.processes.all (fun p => p.completed) = true := by
      rw [List.all_eq_true]
      intro p hp
      simp [hcompl p hp]
    constructor
    · intro hex
      rw [Job.status, if_neg (by simp [hany]), if_pos hall]
      simp only [hgl, hex, if_true]
    · intro hsig
      have hnex : WIFEXITED (j.processes.getLast hne).status = false := by
        rw [WIFEXITED]
        rw [WIFSIGNALED] at hsig
        simp only [decide_eq_true_eq] at hsig
        rw [decide_eq_false_iff_not]
        omega
      rw [Job.status, if_neg (by simp [hany]), if_pos hall]
      simp only [hgl, hnex, hsig, if_true, if_false, Bool.false_eq_true]
  · rintro hstop ⟨p, hp, hpc⟩
    have hany : j.processes.any (fun p => p.stopped) = false := by
      rw [List.any_eq_false]
      intro q hq
      simp [hstop q hq]
    have hall : j.processes.all (fun p => p.completed) = false := by
      rw [List.all_eq_false]
      exact ⟨p, hp, by simp [hpc]⟩
    rw [Job.status, if_neg (by simp [hany]), if_neg (by simp [hall])]

/-- Concrete job for the C4 witness: two completed processes, the last
exited with raw status 256 (exit code 1). -/
def jobW : Job :=
  { id := 1, pgid := 5, command := "true | false",
    processes := [⟨10, true, false, 0⟩, ⟨11, true, false, 256⟩],
    notified := false }

/-- Witness for C4: `jobW` derives `Done 1` via the all-completed branch. -/
theorem job_status_derivation_witness : jobW.status = JobStatus.Done 1 := by
  have h := ((job_status_derivation jobW (by simp [jobW])).2.1
    (by intro p hp; fin_cases hp <;> rfl)
    (by intro p hp; fin_cases hp <;> rfl)).1 (by decide)
  rw [h]
  decide

/-- The id-search loop returns the least id `≥ start` that no job uses,
provided some unused id lies within `fuel` steps. -/
theorem findIdAux_spec (jobs : List Job) :
    ∀ (fuel start : Nat),
      (∃ k, start ≤ k ∧ k < start + fuel ∧ ∀ j ∈ jobs, j.id ≠ k) →
      (start ≤ findIdAux jobs fuel start ∧
       (∀ j ∈ jobs, j.id ≠ findIdAux jobs fuel start) ∧
       ∀ y, start ≤ y → y < findIdAux jobs fuel start → ∃ j ∈ jobs, j.id = y) := by
  intro fuel
  induction fuel with
  | zero =>
    rintro start ⟨k, hk1, hk2, _⟩
    omega
  | succ fuel ih =>
    rintro start ⟨k, hk1, hk2, hkfree⟩
    rw [findIdAux]
    by_cases hany : jobs.any (fun j => j.id == start) = true
    · rw [if_pos hany]
      rw [List.any_eq_true] at hany
      obtain ⟨j0, hj0, hj0id⟩ := hany
      have hj0id' : j0.id = start := by simpa using hj0id
      have hks : k ≠ start := fun h => (hkfree j0 hj0) (h ▸ hj0id')
      obtain ⟨h1, h2, h3⟩ := ih (start + 1) ⟨k, by omega, by omega, hkfree⟩
      refine ⟨by omega, h2, fun y hy1 hy2 => ?_⟩
      by_cases hys : y = start
      · exact ⟨j0, hj0, hys ▸ hj0id'⟩
      · exact h3 y (by omega) hy2
    · rw [if_neg hany]
      simp only [Bool.not_eq_true, List.any_eq_false] at hany
      refine ⟨Nat.le_refl _, fun j hj => ?_, fun y hy1 hy2 => by omega⟩
      have := hany j hj
      simpa using this

/-- Pigeonhole: among the ids `1..=jobs.length + 1` at least one is not
used by any of the `jobs.length` jobs. -/
theorem exists_unused_id (jobs : List Job) :
    ∃ k, 1 ≤ k ∧ k < 1 + (jobs.length + 1) ∧ ∀ j ∈ jobs, j.id ≠ k := by
  by_contra hcon
  push_neg at hcon
  have hsub : Finset.Icc 1 (jobs.length + 1) ⊆
      (jobs.map (fun j => j.id)).toFinset := by
    intro k hk
    rw [Finset.mem_Icc] at hk
    obtain ⟨j, hj, hjid⟩ := hcon k hk.1 (by omega)
    rw [List.mem_toFinset, List.mem_map]
    exact ⟨j, hj, hjid⟩
  have hcard := Finset.card_le_card hsub
  rw [Nat.card_Icc] at hcard
  have h2 : (jobs.map (fun j => j.id)).toFinset.card ≤ jobs.length := by
    calc (jobs.map (fun j => j.id)).toFinset.card
        ≤ (jobs.map (fun j => j.id)).length := List.toFinset_card_le _
      _ = jobs.length := List.length_map _ _
  omega

/-- C8: job ids form an invariant of the table.  Starting from a table
whose jobs all have ids `≥ 1`, pairwise distinct, `insert` returns the
smallest positive id not currently in use, gives the new job that id,
and preserves the invariant (so an id can be reused only once the job
holding it has been removed). -/
theorem insert_assigns_least_unused (t : JobTable) (pgid : Int) (cmd : String)
    (pids : List Int)
    (hids : ∀ j ∈ t.jobs, 1 ≤ j.id)
    (hnodup : (t.jobs.map (fun j => j.id)).Nodup) :
    1 ≤ (t.insert pgid cmd pids).2 ∧
    (∀ j ∈ t.jobs, j.id ≠ (t.insert pgid cmd pids).2) ∧
    (∀ y, 1 ≤ y → y < (t.insert pgid cmd pids).2 → ∃ j ∈ t.jobs, j.id = y) ∧
    ((t.insert pgid cmd pids).1.jobs.map (fun j => j.id)) =
      (t.jobs.map (fun j => j.id)) ++ [(t.insert pgid cmd pids).2] ∧
    (∀ j ∈ (t.insert pgid cmd pids).1.jobs, 1 ≤ j.id) ∧
    ((t.insert pgid cmd pids).1.jobs.map (fun j => j.id)).Nodup := by
  have hspec := findIdAux_spec t.jobs (t.jobs.length + 1) 1
    (exists_unused_id t.jobs)
  obtain ⟨h1, h2, h3⟩ := hspec
  have hsnd : (t.insert pgid cmd pids).2 =
      findIdAux t.jobs (t.jobs.length + 1) 1 := rfl
  have hmap : ((t.insert pgid cmd pids).1.jobs.map (fun j => j.id)) =
      (t.jobs.map (fun j => j.id)) ++ [findIdAux t.jobs (t.jobs.length + 1) 1] := by
    simp only [JobTable.insert]
    by_cases hnext : t.next_id ≤ findIdAux t.jobs (t.jobs.length + 1) 1
    · rw [if_pos hnext]
      rw [List.map_append]
      rfl
    · rw [if_neg hnext]
      rw [List.map_append]
      rfl
  refine ⟨?_, ?_, ?_, ?_, ?_, ?_⟩
  · rw [hsnd]; exact h1
  · rw [hsnd]; exact h2
  · rw [hsnd]; exact h3
  · rw [hsnd, hmap]
  · intro j hj
    have hmem : j.id ∈ ((t.insert pgid cmd pids).1.jobs.map (fun j => j.id)) :=
      List.mem_map_of_mem _ hj
    rw [hmap, List.mem_append] at hmem
    rcases hmem with hmem | hmem
    · rw [List.mem_map] at hmem
      obtain ⟨j0, hj0, hj0id⟩ := hmem
      rw [← hj0id]
      exact hids j0 hj0
    · rw [List.mem_singleton] at hmem
      rw [hmem]
      exact h1
  · rw [hmap, List.nodup_append]
    refine ⟨hnodup, List.nodup_singleton _, fun a ha hb => ?_⟩
    rw [List.mem_map] at ha
    obtain ⟨j, hj, hjid⟩ := ha
    rw [List.mem_singleton] at hb
    exact h2 j hj (by rw [hjid, hb])

/-- Concrete table for the C8 witness: jobs with ids 1 and 3; the
smallest unused positive id is 2. -/
def tblW : JobTable :=
  { jobs := [{ id := 1, pgid := 11, command := "sleep 9", processes := [],
               notified := false },
             { id := 3, pgid := 13, command := "sleep 7", processes := [],
               notified := false }],
    next_id := 4 }

/-- Witness for C8: inserting into `tblW` assigns and returns id 2. -/
theorem insert_assigns_least_unused_witness :
    1 ≤ (tblW.insert 20 "cat" [41]).2 ∧
    (∀ j ∈ tblW.jobs, j.id ≠ (tblW.insert 20 "cat" [41]).2) ∧
    (∀ y, 1 ≤ y → y < (tblW.insert 20 "cat" [41]).2 →
      ∃ j ∈ tblW.jobs, j.id = y) ∧
    ((tblW.insert 20 "cat" [41]).1.jobs.map (fun j => j.id)) =
      (tblW.jobs.map (fun j => j.id)) ++ [(tblW.insert 20 "cat" [41]).2] ∧
    (∀ j ∈ (tblW.insert 20 "cat" [41]).1.jobs, 1 ≤ j.id) ∧
    ((tblW.insert 20 "cat" [41]).1.jobs.map (fun j => j.id)).Nodup :=
  insert_assigns_least_unused tblW 20 "cat" [41]
    (by intro j hj; fin_cases hj <;> decide)
    (by decide)

theorem markProc_none_iff (pid raw : Int) :
    ∀ (ps : List JobProcess),
      markProc pid raw ps = none ↔ ∀ p ∈ ps, p.pid ≠ pid := by
  intro ps
  induction ps with
  | nil => simp [markProc]
  | cons q rest ih =>
    rw [markProc]
    by_cases hq : (q.pid == pid) = true
    · rw [if_pos hq]
      simp only [reduceCtorEq, false_iff]
      intro hall
      exact hall q (by simp) (by simpa using hq)
    · rw [if_neg hq]
      constructor
      · intro h p hp
        rcases List.mem_cons.mp hp with hp | hp
        · subst hp
          simpa using hq
        · cases hm : markProc pid raw rest with
          | none => exact (ih.mp hm) p hp
          | some r => rw [hm] at h; exact Option.noConfusion h
      · intro hall
        rw [ih.mpr (fun p hp => hall p (List.mem_cons_of_mem _ hp))]
        rfl

theorem markProc_some (pid raw : Int) :
    ∀ (ps : List JobProcess), (∃ p ∈ ps, p.pid = pid) →
      ∃ ppre p ppost, ps = ppre ++ p :: ppost ∧
        (∀ q ∈ ppre, q.pid ≠ pid) ∧ p.pid = pid ∧
        markProc pid raw ps = some (ppre ++
          { p with
              status := raw
              stopped := WIFSTOPPED raw
              completed := !WIFSTOPPED raw } :: ppost) := by
  intro ps
  induction ps with
  | nil => rintro ⟨p, hp, _⟩; simp at hp
  | cons q rest ih =>
    rintro ⟨p, hp, hpid⟩
    by_cases hq : (q.pid == pid) = true
    · refine ⟨[], q, rest, by simp, by simp, by simpa using hq, ?_⟩
      rw [markProc, if_pos hq]
      rfl
    · have hqne : q.pid ≠ pid := by simpa using hq
      have hprest : p ∈ rest := by
        rcases List.mem_cons.mp hp with hp2 | hp2
        · exact absurd (hp2 ▸ hpid) hqne
        · exact hp2
      obtain ⟨ppre, p2, ppost, hdec, hpre, hp2id, hmark⟩ := ih ⟨p, hprest, hpid⟩
      refine ⟨q :: ppre, p2, ppost, by rw [hdec]; rfl, ?_, hp2id, ?_⟩
      · intro r hr
        rcases List.mem_cons.mp hr with hr | hr
        · subst hr; exact hqne
        · exact hpre r hr
      · rw [markProc, if_neg hq, hmark]
        rfl

/-- C10: `mark_pid` is a frame-respecting update.  When no process in the
table has the pid, the table is unchanged; otherwise the first matching
process of the first matching job is the only thing modified (status set
to the raw status, stopped/completed set according to `WIFSTOPPED`),
while all preceding jobs, all other processes, the job's own id, pgid,
command and notified fields, the following jobs, and `next_id` are
unchanged. -/
theorem mark_pid_frame (t : JobTable) (pid raw : Int) :
    ((∀ j ∈ t.jobs, ∀ p ∈ j.processes, p.pid ≠ pid) →
      t.mark_pid pid raw = t) ∧
    ((∃ j ∈ t.jobs, ∃ p ∈ j.processes, p.pid = pid) →
      ∃ pre j post ppre p ppost,
        t.jobs = pre ++ j :: post ∧
        j.processes = ppre ++ p :: ppost ∧
        (∀ j2 ∈ pre, ∀ p2 ∈ j2.processes, p2.pid ≠ pid) ∧
        (∀ p2 ∈ ppre, p2.pid ≠ pid) ∧
        p.pid = pid ∧
        (t.mark_pid pid raw).jobs =
          pre ++ { j with processes := ppre ++
            { p with
                status := raw
                stopped := WIFSTOPPED raw
                completed := !WIFSTOPPED raw } :: ppost } :: post) ∧
    (t.mark_pid pid raw).next_id = t.next_id := by
  refine ⟨?_, ?_, rfl⟩
  · intro hall
    have : ∀ (js : List Job), (∀ j ∈ js, ∀ p ∈ j.processes, p.pid ≠ pid) →
        markJobs pid raw js = js := by
      intro js
      induction js with
      | nil => intro _; rfl
      | cons j rest ih =>
        intro h
        rw [markJobs]
        rw [(markProc_none_iff pid raw j.processes).mpr (h j (by simp))]
        rw [ih (fun j2 hj2 => h j2 (List.mem_cons_of_mem _ hj2))]
    rw [JobTable.mark_pid, this t.jobs hall]
  · intro hex
    have main : ∀ (js : List Job), (∃ j ∈ js, ∃ p ∈ j.processes, p.pid = pid) →
        ∃ pre j post ppre p ppost,
          js = pre ++ j :: post ∧
          j.processes = ppre ++ p :: ppost ∧
          (∀ j2 ∈ pre, ∀ p2 ∈ j2.processes, p2.pid ≠ pid) ∧
          (∀ p2 ∈ ppre, p2.pid ≠ pid) ∧
          p.pid = pid ∧
          markJobs pid raw js =
            pre ++ { j with processes := ppre ++
              { p with
                  status := raw
                  stopped := WIFSTOPPED raw
                  completed := !WIFSTOPPED raw } :: ppost } :: post := by
      intro js
      induction js with
      | nil => rintro ⟨j, hj, _⟩; simp at hj
      | cons j0 rest ih =>
        rintro ⟨j, hj, p, hp, hpid⟩
        by_cases hj0 : ∃ q ∈ j0.processes, q.pid = pid
        · obtain ⟨ppre, q, ppost, hdec, hpre, hqid, hmark⟩ :=
            markProc_some pid raw j0.processes hj0
          refine ⟨[], j0, rest, ppre, q, ppost, by simp, hdec, by simp,
            hpre, hqid, ?_⟩
          rw [markJobs, hmark]
          rfl
        · push_neg at hj0
          have hjrest : j ∈ rest := by
            rcases List.mem_cons.mp hj with hj2 | hj2
            · subst hj2
              exact absurd hpid (hj0 p hp)
            · exact hj2
          obtain ⟨pre, j1, post, ppre, p1, ppost, hdec, hproc, hprej,
            hprep, hp1id, hmark⟩ := ih ⟨j, hjrest, p, hp, hpid⟩
          refine ⟨j0 :: pre, j1, post, ppre, p1, ppost, by rw [hdec]; rfl,
            hproc, ?_, hprep, hp1id, ?_⟩
          · intro j2 hj2
            rcases List.mem_cons.mp hj2 with hj2 | hj2
            · subst hj2
              exact hj0
            · exact hprej j2 hj2
          · rw [markJobs]
            rw [(markProc_none_iff pid raw j0.processes).mpr hj0, hmark]
            rfl
    obtain ⟨pre, j, post, ppre, p, ppost, h⟩ := main t.jobs hex
    exact ⟨pre, j, post, ppre, p, ppost, h⟩

/-- Table for the C10 witness: two jobs; pid 31 sits in the middle of
the second job's pipeline. -/
def tblM : JobTable :=
  { jobs := [{ id := 1, pgid := 10, command := "sleep 9",
               processes := [⟨10, false, false, 0⟩], notified := false },
             { id := 2, pgid := 30, command := "a | b | c",
               processes := [⟨30, false, false, 0⟩, ⟨31, false, false, 0⟩,
                             ⟨32, false, false, 0⟩],
               notified := false }],
    next_id := 3 }

/-- Witness for C10: marking an absent pid leaves `tblM` unchanged, and
marking pid 31 with raw status 127 (WIFSTOPPED) yields the decomposition
of the frame theorem. -/
theorem mark_pid_frame_witness :
    tblM.mark_pid 99 0 = tblM ∧
    (∃ pre j post ppre p ppost,
      tblM.jobs = pre ++ j :: post ∧
      j.processes = ppre ++ p :: ppost ∧
      (∀ j2 ∈ pre, ∀ p2 ∈ j2.processes, p2.pid ≠ 31) ∧
      (∀ p2 ∈ ppre, p2.pid ≠ 31) ∧
      p.pid = 31 ∧
      (tblM.mark_pid 31 127).jobs =
        pre ++ { j with processes := ppre ++
          { p with
              status := 127
              stopped := WIFSTOPPED 127
              completed := !WIFSTOPPED 127 } :: ppost } :: post) :=
  ⟨(mark_pid_frame tblM 99 0).1
    (by intro j hj; fin_cases hj <;> (intro p hp; fin_cases hp <;> decide)),
   (mark_pid_frame tblM 31 127).2.1
    ⟨tblM.jobs[1], by simp [tblM], ⟨31, false, false, 0⟩, by simp [tblM], rfl⟩⟩

/-! ## Foreground wait and `set -o pipefail` (src/job.rs, src/builtins.rs)

`wait_for_fg` loops on `waitpid(-pgid, WUNTRACED)`; the successive
returns of `waitpid` (pid > 0 with a raw status) are modelled as an
event list, the end of the list modelling `pid <= 0`.  The shell option
flags set by the `set` builtin are modelled by `ShellOpts`.

Note: nothing in src/job.rs or src/executor.rs reads `set_pipefail`; the
derived exit status of a completed pipeline always comes from the last
process alone (`Job::status`). -/

/-- The post-loop status extraction of `wait_for_fg` (src/job.rs lines
248-256), applied to the last raw status seen. -/
def wait_post (last_raw : Int) : Int × Bool :=
  if WIFEXITED last_raw then (WEXITSTATUS last_raw, false)
  else if WIFSIGNALED last_raw then (128 + WTERMSIG last_raw, false)
  else (0, false)

/-- Embeds `wait_for_fg` from src/job.rs over an event list: each event
marks the pid in the table, then the job with the matching pgid (if
registered) decides Done/Stopped/continue; an unregistered foreground
job is judged from the raw status directly. -/
def wait_for_fg (t : JobTable) (pgid : Int) :
    List (Int × Int) → Int → JobTable × (Int × Bool)
  | [], last_raw => (t, wait_post last_raw)
  | (pid, raw) :: rest, _ =>
    let t2 := t.mark_pid pid raw
    match t2.jobs.find? (fun j => j.pgid == pgid) with
    | some job =>
      match job.status with
      | JobStatus.Done code => (t2, (code, false))
      | JobStatus.Stopped => (t2, (148, true))
      | JobStatus.Running => wait_for_fg t2 pgid rest raw
    | none =>
      if WIFSTOPPED raw then (t2, (148, true))
      else if WIFEXITED raw then (t2, (WEXITSTATUS raw, false))
      else if WIFSIGNALED raw then (t2, (128 + WTERMSIG raw, false))
      else (t2, wait_post raw)

/-- The shell option flags of `Shell` (src/shell.rs). -/
structure ShellOpts where
  set_errexit : Bool
  set_nounset : Bool
  set_pipefail : Bool
deriving DecidableEq

/-- The flag-character loop of `builtin_set` (`-e`, `-u`, combined
flags); partial updates persist when an invalid character is hit, as in
the Rust code. -/
def applyFlags (sh : ShellOpts) (enable : Bool) :
    List Char → ShellOpts × Bool
  | [] => (sh, true)
  | ch :: rest =>
    if ch == 'e' then applyFlags { sh with set_errexit := enable } enable rest
    else if ch == 'u' then applyFlags { sh with set_nounset := enable } enable rest
    else (sh, false)

/-- The argument loop of `builtin_set` (src/builtins.rs lines
1293-1335); the display-only branches (`set`, bare `-o`) write to stdout
and change nothing. -/
def setLoop (sh : ShellOpts) : List String → ShellOpts × Int
  | [] => (sh, 0)
  | arg :: rest =>
    if arg = "-o" || arg = "+o" then
      let enable := arg = "-o"
      match rest with
      | next :: rest2 =>
        if next = "pipefail" then
          setLoop { sh with set_pipefail := enable } rest2
        else (sh, 1)
      | [] => (sh, 0)
    else if arg.startsWith "-" || arg.startsWith "+" then
      let enable := arg.startsWith "-"
      match applyFlags sh enable (arg.toList.drop 1) with
      | (sh2, true) => setLoop sh2 rest
      | (sh2, false) => (sh2, 1)
    else (sh, 1)

/-- Embeds `builtin_set` from src/builtins.rs (flag effects; the
settings display goes to stdout and is not modelled). -/
def builtin_set (sh : ShellOpts) (args : List String) : ShellOpts × Int :=
  if args.length ≤ 1 then (sh, 0)
  else setLoop sh (args.drop 1)

/-- The job table during `fg`-style waiting on the pipeline
`false | true` (pgid 5, pids 10 and 11). -/
def tblP : JobTable :=
  { jobs := [{ id := 1, pgid := 5, command := "false | true",
               processes := [⟨10, false, false, 0⟩, ⟨11, false, false, 0⟩],
               notified := false }],
    next_id := 2 }

/-- C1 (failing part): `set -o pipefail` sets the flag, yet the status
a completed `false | true` pipeline yields from `wait_for_fg` is 0 (the
last command's exit status) — the flag is never consulted
(`wait_for_fg` does not even take it as an input) — whereas the leftmost
non-zero exit status in the pipeline is `WEXITSTATUS 256 = 1`.
Event list: pid 10 exits with raw status 256 (exit code 1, from
`false`), then pid 11 exits with raw status 0 (from `true`). -/
theorem pipefail_set_but_ignored :
    (builtin_set ⟨false, false, false⟩ ["set", "-o", "pipefail"]).1.set_pipefail
      = true ∧
    (builtin_set ⟨false, false, false⟩ ["set", "-o", "pipefail"]).2 = 0 ∧
    (wait_for_fg tblP 5 [(10, 256), (11, 0)] 0).2 = (0, false) ∧
    WEXITSTATUS 256 = 1 ∧
    (wait_for_fg tblP 5 [(10, 256), (11, 0)] 0).2.1 ≠ WEXITSTATUS 256 := by
  refine ⟨by decide, by decide, ?_, by decide, ?_⟩ <;> decide

/-! ## Command-list execution (src/executor.rs `execute`)

The `execute` loop walks `list.items` left to right; for `i > 0` it
consults `items[i - 1].connector` and `continue`s (skips) when the gate
fails, otherwise runs the pipeline and updates `last_status`.  Pipeline
execution (with whatever shell-state effects it has) is abstracted as a
state-passing oracle `run`; `reap_jobs` at the top is abstracted as
`reap`. -/

inductive Connector where
  | And
  | Or
  | Seq
deriving DecidableEq

/-- One item of a `CommandList`: a pipeline together with the connector
that FOLLOWS it (used to gate the next item). -/
structure ListItem (π : Type) where
  pipeline : π
  connector : Connector

structure CommandList (π : Type) where
  items : List (ListItem π)

/-- The skip condition of the `execute` loop: exactly the
`match items[i-1].connector { And if last_status != 0 => continue,
Or if last_status == 0 => continue, _ => {} }` of the source (`none`
models `i = 0`, which is never gated). -/
def skipGate (prev : Option Connector) (last : Int) : Bool :=
  match prev with
  | some Connector.And => decide (last ≠ 0)
  | some Connector.Or => decide (last = 0)
  | _ => false

/-- Embeds the loop body of `execute`: carries the previous item's
connector (`none` for the first item). -/
def execItems {σ π : Type} (run : σ → π → σ × Int) :
    σ → Int → Option Connector → List (ListItem π) → σ × Int
  | s, last, _, [] => (s, last)
  | s, last, prev, item :: rest =>
    if skipGate prev last then execItems run s last (some item.connector) rest
    else
      let r := run s item.pipeline
      execItems run r.1 r.2 (some item.connector) rest

/-- Embeds `execute` from src/executor.rs: reap background jobs, then
walk the list with `last_status = 0` initially. -/
def execute {σ π : Type} (run : σ → π → σ × Int) (reap : σ → σ) (s : σ)
    (list : CommandList π) : σ × Int :=
  execItems run (reap s) 0 none list.items

/-- Specification-side gate, following the claim's words: after `And`
the next pipeline runs only when `last_status = 0`, after `Or` only when
`last_status ≠ 0`, after `Seq` always. -/
def gateAllows (c : Connector) (last : Int) : Bool :=
  match c with
  | Connector.And => decide (last = 0)
  | Connector.Or => decide (last ≠ 0)
  | Connector.Seq => true

/-- Gate including the ungated first item. -/
def gateOpt (prev : Option Connector) (last : Int) : Bool :=
  match prev with
  | none => true
  | some c => gateAllows c last

/-- Specification-side execution: items are processed strictly left to
right; an item whose gate fails is skipped and leaves the status (and
the state) unchanged; the first item is never gated. -/
def specExecItems {σ π : Type} (run : σ → π → σ × Int) :
    σ → Int → Option Connector → List (ListItem π) → σ × Int
  | s, last, _, [] => (s, last)
  | s, last, prev, item :: rest =>
    if gateOpt prev last then
      let r := run s item.pipeline
      specExecItems run r.1 r.2 (some item.connector) rest
    else specExecItems run s last (some item.connector) rest

/-- C3: `execute` runs the command list strictly left to right with each
item after the first gated by the preceding connector (`And`: run iff
`last_status = 0`; `Or`: run iff `last_status ≠ 0`; `Seq`: always), and
a skipped item leaves the state and `last_status` unchanged — for every
pipeline oracle `run` and reaper `reap`. -/
theorem execute_connector_gating {σ π : Type} (run : σ → π → σ × Int)
    (reap : σ → σ) (s : σ) (list : CommandList π) :
    execute run reap s list = specExecItems run (reap s) 0 none list.items := by
  rw [execute]
  generalize reap s = s0
  generalize (0 : Int) = last0
  generalize (none : Option Connector) = prev0
  induction list.items generalizing s0 last0 prev0 with
  | nil => rfl
  | cons item rest ih =>
    rw [execItems, specExecItems]
    cases prev0 with
    | none =>
      rw [if_neg (show ¬(skipGate none last0 = true) by simp [skipGate]),
        if_pos (show gateOpt none last0 = true by simp [gateOpt])]
      exact ih _ _ _
    | some c =>
      cases c with
      | And =>
        by_cases h : last0 = 0
        · rw [if_neg (show ¬(skipGate (some Connector.And) last0 = true) by
              simp [skipGate, h]),
            if_pos (show gateOpt (some Connector.And) last0 = true by
              simp [gateOpt, gateAllows, h])]
          exact ih _ _ _
        · rw [if_pos (show skipGate (some Connector.And) last0 = true by
              simp [skipGate, h]),
            if_neg (show ¬(gateOpt (some Connector.And) last0 = true) by
              simp [gateOpt, gateAllows, h])]
          exact ih _ _ _
      | Or =>
        by_cases h : last0 = 0
        · rw [if_pos (show skipGate (some Connector.Or) last0 = true by
              simp [skipGate, h]),
            if_neg (show ¬(gateOpt (some Connector.Or) last0 = true) by
              simp [gateOpt, gateAllows, h])]
          exact ih _ _ _
        · rw [if_neg (show ¬(skipGate (some Connector.Or) last0 = true) by
              simp [skipGate, h]),
            if_pos (show gateOpt (some Connector.Or) last0 = true by
              simp [gateOpt, gateAllows, h])]
          exact ih _ _ _
      | Seq =>
        rw [if_neg (show ¬(skipGate (some Connector.Seq) last0 = true) by
            simp [skipGate]),
          if_pos (show gateOpt (some Connector.Seq) last0 = true by
            simp [gateOpt, gateAllows])]
        exact ih _ _ _

/-! ## Line editor: kill-word-backward (src/editor.rs `kill_word_back`)

The buffer is modelled at character granularity (the Rust code collects
`char_indices()` of the text before the cursor and deletes between two
character positions; the cursor always sits on a character boundary, so
byte positions correspond one-to-one with the character positions used
here). -/

/-- Embeds one backward-skip loop of `kill_word_back`
(`while idx > 0 && p(chars[idx - 1]) { idx -= 1 }`). -/
def skipBack (p : Char → Bool) (chars : List Char) : Nat → Nat
  | 0 => 0
  | idx + 1 =>
    if (match chars[idx]? with
        | some c => p c
        | none => false) then skipBack p chars idx
    else idx + 1

/-- Embeds `kill_word_back` from src/editor.rs: on a non-empty prefix
before the cursor, skip trailing `' '` characters, then skip non-`' '`
characters, and delete the span from the resulting position up to the
cursor. -/
def kill_word_back (buf : List Char) (cursor : Nat) : List Char × Nat :=
  if cursor == 0 then (buf, cursor)
  else
    let before := buf.take cursor
    let idx := skipBack (fun c => c == ' ') before before.length
    let idx2 := skipBack (fun c => c != ' ') before idx
    (before.take idx2 ++ buf.drop cursor, idx2)

/-- The claim's description of kill-word-backward, with "whitespace"
read as general whitespace (`Char.isWhitespace`): drop trailing
whitespace, then drop the non-whitespace word, delete that span. -/
def spec_kill_word_back_ws (buf : List Char) (cursor : Nat) : List Char × Nat :=
  let before := buf.take cursor
  let kept := (before.rdropWhile (fun c => c.isWhitespace)).rdropWhile
    (fun c => !c.isWhitespace)
  (kept ++ buf.drop cursor, kept.length)

/-- The amended description: only the ASCII space character `' '` counts
as whitespace (this is what the code tests). -/
def spec_kill_word_back_sp (buf : List Char) (cursor : Nat) : List Char × Nat :=
  let before := buf.take cursor
  let kept := (before.rdropWhile (fun c => c == ' ')).rdropWhile
    (fun c => c != ' ')
  (kept ++ buf.drop cursor, kept.length)

/-- The backward-skip loop from position `n` computes the length of
`rdropWhile p` on the first `n` characters. -/
theorem skipBack_eq_rdropWhile (p : Char → Bool) (chars : List Char) :
    ∀ n, n ≤ chars.length →
      skipBack p chars n = ((chars.take n).rdropWhile p).length := by
  intro n
  induction n with
  | zero =>
    intro _
    simp [skipBack, List.rdropWhile]
  | succ n ih =>
    intro hn
    have hlt : n < chars.length := by omega
    have hget : chars[n]? = some chars[n] := List.getElem?_eq_getElem hlt
    have htake : chars.take (n + 1) = chars.take n ++ [chars[n]] := by
      rw [List.take_succ, hget]
      rfl
    rw [skipBack]
    simp only [hget]
    by_cases hp : p chars[n] = true
    · rw [if_pos hp, ih (by omega), htake,
        List.rdropWhile_concat_pos _ _ _ hp]
    · rw [if_neg hp, htake,
        List.rdropWhile_concat_neg _ _ _ (by simpa using hp)]
      rw [List.length_append, List.length_take]
      simp only [List.length_cons, List.length_nil]
      omega

/-- C9 (amended): `kill_word_back` deletes, going backwards from the
cursor, first the run of space characters (`' '` only), then the run of
non-space characters, and moves the cursor to the start of the deleted
span; on `"echo   hello"` with the cursor at the end it produces
`"echo   "` with the cursor after the spaces. -/
theorem kill_word_back_space_semantics (buf : List Char) (cursor : Nat) :
    kill_word_back buf cursor = spec_kill_word_back_sp buf cursor ∧
    kill_word_back "echo   hello".toList 12 = ("echo   ".toList, 7) := by
  refine ⟨?_, by decide⟩
  rw [kill_word_back, spec_kill_word_back_sp]
  by_cases h0 : cursor == 0
  · rw [if_pos h0]
    have hc : cursor = 0 := by simpa using h0
    subst hc
    simp [List.rdropWhile]
  · rw [if_neg h0]
    simp only []
    have e1 : skipBack (fun c => c == ' ') (buf.take cursor)
        (buf.take cursor).length =
        (((buf.take cursor).take (buf.take cursor).length).rdropWhile
          (fun c => c == ' ')).length :=
      skipBack_eq_rdropWhile _ _ _ (Nat.le_refl _)
    rw [List.take_length] at e1
    have hr1pre : (buf.take cursor).rdropWhile (fun c => c == ' ') <+:
        buf.take cursor := List.rdropWhile_prefix _ _
    have e2 : skipBack (fun c => c != ' ') (buf.take cursor)
        ((buf.take cursor).rdropWhile (fun c => c == ' ')).length =
        (((buf.take cursor).take
            ((buf.take cursor).rdropWhile (fun c => c == ' ')).length).rdropWhile
          (fun c => c != ' ')).length :=
      skipBack_eq_rdropWhile _ _ _ hr1pre.length_le
    rw [show (buf.take cursor).take
        ((buf.take cursor).rdropWhile (fun c => c == ' ')).length =
        (buf.take cursor).rdropWhile (fun c => c == ' ') from
      (List.prefix_iff_eq_take.mp hr1pre).symm] at e2
    have hkpre : ((buf.take cursor).rdropWhile (fun c => c == ' ')).rdropWhile
        (fun c => c != ' ') <+: buf.take cursor :=
      (List.rdropWhile_prefix _ _).trans hr1pre
    rw [e1, e2]
    rw [show (buf.take cursor).take
        (((buf.take cursor).rdropWhile (fun c => c == ' ')).rdropWhile
          (fun c => c != ' ')).length =
        ((buf.take cursor).rdropWhile (fun c => c == ' ')).rdropWhile
          (fun c => c != ' ') from (List.prefix_iff_eq_take.mp hkpre).symm]

/-- C9 counterexample to the claim as stated: with a tab character
(which is whitespace but not `' '`) the code deletes through the tab,
while the whitespace-based description stops at it. -/
theorem kill_word_back_ws_counterexample :
    kill_word_back ['a', '\t', 'b'] 3 ≠
      spec_kill_word_back_ws ['a', '\t', 'b'] 3 := by decide

/-! ## Arithmetic expansion (src/parser.rs `eval_arithmetic` / `ArithParser`)

The recursive-descent parser works on the byte string (after variable
expansion); `self.pos` is modelled as an explicit position, and the
mutually recursive parse functions are fused into one function over a
mode tag, with a fuel parameter (every loop iteration or nested call
either consumes input or moves to a strictly smaller layer, so
`4 * (input.length + 1)` fuel suffices for the evaluations below).
`i64` arithmetic wraps (`wrapping_add` / `wrapping_sub` /
`wrapping_mul` / `wrapping_neg`); `/` and `%` are Rust `i64` division
and remainder (truncation toward zero). -/

/-- Two's-complement wrap-around to the `i64` range. -/
def wrap64 (x : Int) : Int := (x + 2 ^ 63).emod (2 ^ 64) - 2 ^ 63

/-- Rust `u8::is_ascii_whitespace`: space, tab, newline, form feed,
carriage return. -/
def isWsByte (b : Nat) : Bool := b == 32 || b == 9 || b == 10 || b == 12 || b == 13

def isDigitByte (b : Nat) : Bool := 48 ≤ b && b ≤ 57

/-- `is_var_start` from src/parser.rs: ASCII alphabetic or `_`. -/
def is_var_start (b : Nat) : Bool :=
  (65 ≤ b && b ≤ 90) || (97 ≤ b && b ≤ 122) || b == 95

/-- `is_var_char` from src/parser.rs: ASCII alphanumeric or `_`. -/
def is_var_char (b : Nat) : Bool := is_var_start b || isDigitByte b

/-- Embeds `skip_ws` (`while pos < len && input[pos].is_ascii_whitespace()`). -/
def skip_ws (input : List Nat) : Nat → Nat → Nat
  | 0, pos => pos
  | fuel + 1, pos =>
    if (match input[pos]? with
        | some b => isWsByte b
        | none => false) then skip_ws input fuel (pos + 1)
    else pos

/-- Decimal value of a digit-byte list. -/
def digitsToNat (ds : List Nat) : Nat := ds.foldl (fun a b => a * 10 + (b - 48)) 0

/-- Rust `str::parse::<i64>` on an all-digit string: the value, or 0 on
overflow (`unwrap_or(0)`). -/
def parseDigitsI64 (ds : List Nat) : Int :=
  if digitsToNat ds ≤ 2 ^ 63 - 1 then (digitsToNat ds : Int) else 0

/-- Rust `str::parse::<i64>` (used on environment-variable values):
optional sign, at least one digit, nothing else, within the `i64`
range; `none` models `Err`. -/
def parse_i64 (s : List Nat) : Option Int :=
  let core : List Nat → Bool → Option Int := fun ds negate =>
    if ds.isEmpty || !(ds.all isDigitByte) then none
    else
      let v : Int := (digitsToNat ds : Int)
      let v := if negate then -v else v
      if -(2 ^ 63) ≤ v ∧ v ≤ 2 ^ 63 - 1 then some v else none
  match s with
  | 45 :: rest => core rest true
  | 43 :: rest => core rest false
  | _ => core s false

/-- Parser modes: the mutually recursive `parse_expr` / `parse_term` /
`parse_unary` / `parse_primary` of `ArithParser`, with the operator
loops of `parse_expr` and `parse_term` carrying their left operand. -/
inductive AMode where
  | expr
  | exprLoop (left : Int)
  | term
  | termLoop (left : Int)
  | unary
  | primary

/-- Embeds `ArithParser` from src/parser.rs (one function over a mode
tag).  `env` models `std::env::var`.  Notable source behaviours kept:
division/remainder by zero return `Some(0)` for the whole term (after a
diagnostic on stderr); a closing `)` is consumed only if present; an
unrecognised byte in `parse_primary` yields 0 without consuming; a bare
identifier resolves to the integer value of the environment variable
(default 0). -/
def arith (env : List Nat → Option (List Nat)) (input : List Nat) :
    AMode → Nat → Nat → Option (Int × Nat)
  | _, 0, _ => none
  | AMode.expr, fuel + 1, pos =>
    match arith env input AMode.term fuel pos with
    | none => none
    | some (v, p) => arith env input (AMode.exprLoop v) fuel p
  | AMode.exprLoop left, fuel + 1, pos =>
    let pos := skip_ws input (input.length + 1) pos
    if input.length ≤ pos then some (left, pos)
    else
      match input[pos]? with
      | some 43 =>
        (match arith env input AMode.term fuel (pos + 1) with
         | none => none
         | some (r, p2) => arith env input (AMode.exprLoop (wrap64 (left + r))) fuel p2)
      | some 45 =>
        (match arith env input AMode.term fuel (pos + 1) with
         | none => none
         | some (r, p2) => arith env input (AMode.exprLoop (wrap64 (left - r))) fuel p2)
      | _ => some (left, pos)
  | AMode.term, fuel + 1, pos =>
    match arith env input AMode.unary fuel pos with
    | none => none
    | some (v, p) => arith env input (AMode.termLoop v) fuel p
  | AMode.termLoop left, fuel + 1, pos =>
    let pos := skip_ws input (input.length + 1) pos
    if input.length ≤ pos then some (left, pos)
    else
      match input[pos]? with
      | some 42 =>
        (match arith env input AMode.unary fuel (pos + 1) with
         | none => none
         | some (r, p2) => arith env input (AMode.termLoop (wrap64 (left * r))) fuel p2)
      | some 47 =>
        (match arith env input AMode.unary fuel (pos + 1) with
         | none => none
         | some (r, p2) =>
           if r = 0 then some (0, p2)
           else arith env input (AMode.termLoop (left.tdiv r)) fuel p2)
      | some 37 =>
        (match arith env input AMode.unary fuel (pos + 1) with
         | none => none
         | some (r, p2) =>
           if r = 0 then some (0, p2)
           else arith env input (AMode.termLoop (left.tmod r)) fuel p2)
      | _ => some (left, pos)
  | AMode.unary, fuel + 1, pos =>
    let pos := skip_ws input (input.length + 1) pos
    if input.length ≤ pos then some (0, pos)
    else
      match input[pos]? with
      | some 45 =>
        (match arith env input AMode.unary fuel (pos + 1) with
         | none => none
         | some (v, p) => some (wrap64 (-v), p))
      | some 43 => arith env input AMode.unary fuel (pos + 1)
      | _ => arith env input AMode.primary fuel pos
  | AMode.primary, fuel + 1, pos =>
    let pos := skip_ws input (input.length + 1) pos
    if input.length ≤ pos then some (0, pos)
    else
      match input[pos]? with
      | some 40 =>
        (match arith env input AMode.expr fuel (pos + 1) with
         | none => none
         | some (v, p) =>
           let p := skip_ws input (input.length + 1) p
           if (match input[p]? with
               | some 41 => true
               | _ => false) then some (v, p + 1)
           else some (v, p))
      | some b =>
        if isDigitByte b then
          let ds := (input.drop pos).takeWhile isDigitByte
          some (parseDigitsI64 ds, pos + ds.length)
        else if is_var_start b then
          let name := (input.drop pos).takeWhile is_var_char
          let val := (env name).getD []
          some ((parse_i64 val).getD 0, pos + name.length)
        else some (0, pos)
      | none => some (0, pos)

/-- Embeds `eval_arithmetic` from src/parser.rs (after variable
expansion): parse as an expression; `None` yields "0".  The Rust
function renders the value in decimal; the integer value is returned
here. -/
def eval_arithmetic (env : List Nat → Option (List Nat)) (expr : List Nat) : Int :=
  match arith env expr AMode.expr (4 * (expr.length + 1)) 0 with
  | some (v, _) => v
  | none => 0

/-- C6: arithmetic expansion evaluates in wrapping `i64`:
`2 * (3 + 4) - 10/3` yields 11, `10/0` and `7%0` yield 0 (after a
stderr diagnostic, not modelled), and `9223372036854775807 + 1` wraps
to `-9223372036854775808` (byte lists of the expression strings; the
environment is empty). -/
theorem arith_eval_examples :
    eval_arithmetic (fun _ => none) [50,32,42,32,40,51,32,43,32,52,41,32,45,32,49,48,47,51] = 11 ∧
    eval_arithmetic (fun _ => none) [49,48,47,48] = 0 ∧
    eval_arithmetic (fun _ => none) [55,37,48] = 0 ∧
    eval_arithmetic (fun _ => none) [57,50,50,51,51,55,50,48,51,54,56,53,52,55,55,53,56,48,55,32,43,32,49] = -9223372036854775808 := by
  refine ⟨by decide, by decide, by decide, by decide⟩

/-! ## Word expansion pipeline (src/executor.rs, src/parser.rs, src/glob.rs)

`expand_args_full` applies, per argument word: command substitution
(only when the word contains `$(` or a backtick), then tilde expansion,
then brace expansion (one word may become many), then glob expansion
(only for words containing glob characters; a pattern matching nothing
is retained literally).  Command substitution runs arbitrary commands
and is abstracted as an oracle `csub`; `$HOME` and `getpwnam` are the
oracles `home` and `pw`; the filesystem is the oracle `fs`. -/

/-- Byte 123 = `{`, 125 = `}`, 44 = `,`, 46 = `.`, 47 = `/`, 126 = `~`,
61 = `=`, 36 = `$`, 40 = `(`, 96 = backtick. -/
structure FS where
  readDir : List Nat → Option (List (List Nat))
  isDir : List Nat → Bool

/-- Embeds the matching-brace scan of `expand_braces` (depth counting
from 1 after the opening `{`): returns the inner text and the suffix
after the matching `}`. -/
def matchBrace : List Nat → Nat → Option (List Nat × List Nat)
  | [], _ => none
  | b :: r, depth =>
    if b == 125 then
      if depth == 1 then some ([], r)
      else (matchBrace r (depth - 1)).map (fun pr => (b :: pr.1, pr.2))
    else if b == 123 then (matchBrace r (depth + 1)).map (fun pr => (b :: pr.1, pr.2))
    else (matchBrace r depth).map (fun pr => (b :: pr.1, pr.2))

/-- Embeds `split_brace_commas` from src/executor.rs: split at top-level
commas, ignoring commas inside nested braces. -/
def split_brace_commasA : List Nat → Nat → List Nat → List (List Nat)
  | [], _, cur => [cur.reverse]
  | b :: rest, depth, cur =>
    if b == 123 then split_brace_commasA rest (depth + 1) (b :: cur)
    else if b == 125 then
      split_brace_commasA rest (if 0 < depth then depth - 1 else depth) (b :: cur)
    else if b == 44 && depth == 0 then
      cur.reverse :: split_brace_commasA rest 0 []
    else split_brace_commasA rest depth (b :: cur)

def split_brace_commas (content : List Nat) : List (List Nat) :=
  split_brace_commasA content 0 []

/-- First index of `..` in the byte list (Rust `str::find("..")`). -/
def findDotDot : List Nat → Option Nat
  | [] => none
  | 46 :: 46 :: _ => some 0
  | _ :: rest => (findDotDot rest).map (· + 1)

def isAlphaByte (b : Nat) : Bool := (65 ≤ b && b ≤ 90) || (97 ≤ b && b ≤ 122)

/-- Decimal rendering of an `i64` value with the `{:0>width$}`
zero-padding of the Rust code (pad 0 means plain rendering). -/
def fmtPad (pad : Nat) (v : Int) : List Nat :=
  let s := (toString v).toList.map Char.toNat
  if 0 < pad then List.replicate (pad - s.length) 48 ++ s else s

/-- The numeric-range half of `try_expand_range`. -/
def numericRange (start_s end_s : List Nat) : Option (List (List Nat)) :=
  match parse_i64 start_s, parse_i64 end_s with
  | some s_val, some e_val =>
    let pad := if (start_s.head? == some 48 && 1 < start_s.length) ||
        (end_s.head? == some 48 && 1 < end_s.length) then
        max start_s.length end_s.length
      else 0
    some (if s_val ≤ e_val then
        (List.range (e_val - s_val + 1).toNat).map (fun k => fmtPad pad (s_val + k))
      else
        (List.range (s_val - e_val + 1).toNat).map (fun k => fmtPad pad (s_val - k)))
  | _, _ => none

/-- Embeds `try_expand_range` from src/executor.rs: `a..z` character
ranges and `1..5` numeric ranges (with zero-padding detection); `none`
when the inner text is not a valid range. -/
def try_expand_range (inner : List Nat) : Option (List (List Nat)) :=
  match findDotDot inner with
  | none => none
  | some sep =>
    let start_s := inner.take sep
    let end_s := inner.drop (sep + 2)
    if (findDotDot end_s).isSome then none
    else
      match start_s, end_s with
      | [s], [e] =>
        if isAlphaByte s && isAlphaByte e then
          some (if s ≤ e then (List.range (e - s + 1)).map (fun k => [s + k])
            else (List.range (s - e + 1)).map (fun k => [s - k]))
        else numericRange start_s end_s
      | _, _ => numericRange start_s end_s

/-- Embeds `expand_braces` from src/executor.rs with an accumulator for
the scanned prefix (`pre`, reversed) and a fuel parameter: the scan
advances one byte per step and every recursive expansion strictly
shrinks the word, so `(length + 1)²` fuel suffices.  On finding `{...}`
the range interpretation is tried first, then a comma split with at
least two parts; otherwise scanning continues at the next byte. -/
def expand_bracesA : Nat → List Nat → List Nat → List (List Nat)
  | 0, pre, rest => [pre.reverse ++ rest]
  | fuel + 1, pre, rest =>
    match rest with
    | [] => [pre.reverse]
    | b :: rest2 =>
      if b == 123 then
        match matchBrace rest2 1 with
        | some (inner, suffix) =>
          (match try_expand_range inner with
           | some items =>
             items.flatMap (fun it =>
               expand_bracesA fuel [] (pre.reverse ++ it ++ suffix))
           | none =>
             let parts := split_brace_commas inner
             if 2 ≤ parts.length then
               parts.flatMap (fun part =>
                 expand_bracesA fuel [] (pre.reverse ++ part ++ suffix))
             else expand_bracesA fuel (b :: pre) rest2)
        | none => expand_bracesA fuel (b :: pre) rest2
      else expand_bracesA fuel (b :: pre) rest2

def expand_braces (word : List Nat) : List (List Nat) :=
  expand_bracesA ((word.length + 1) * (word.length + 1)) [] word

/-- Embeds `expand_tilde_prefix` from src/parser.rs, with `some` playing
`Cow::Owned` (an expansion happened) and `none` playing `Cow::Borrowed`
(value returned unchanged): `~`/`~/path` resolve through `$HOME`
(oracle `home`), `~user` through `getpwnam` (oracle `pw`; the
`CString::new` failure on an interior NUL byte is kept). -/
def expand_tilde_pfxO (home : Option (List Nat))
    (pw : List Nat → Option (List Nat)) (s : List Nat) : Option (List Nat) :=
  if s.head? != some 126 then none
  else
    let rest_start :=
      match (s.drop 1).findIdx? (fun b => b == 47) with
      | some i => i + 1
      | none => s.length
    let user_part := (s.take rest_start).drop 1
    let rest := s.drop rest_start
    if user_part.isEmpty then
      match home with
      | some h => some (h ++ rest)
      | none => none
    else
      if user_part.contains 0 then none
      else
        match pw user_part with
        | some dir => some (dir ++ rest)
        | none => none

/-- Embeds `expand_tilde` from src/parser.rs: a leading `~` expands; a
`~` right after the first `=` (assignment values) expands with the key
kept; anything else is returned unchanged. -/
def expand_tilde (home : Option (List Nat))
    (pw : List Nat → Option (List Nat)) (s : List Nat) : List Nat :=
  if s.head? == some 126 then (expand_tilde_pfxO home pw s).getD s
  else
    match s.findIdx? (fun b => b == 61) with
    | some eq =>
      if (s.drop (eq + 1)).head? == some 126 then
        match expand_tilde_pfxO home pw (s.drop (eq + 1)) with
        | some expanded => s.take (eq + 1) ++ expanded
        | none => s
      else s
    | none => s

/-- Byte-lexicographic order on names (Rust `String` `Ord`). -/
def lexLe : List Nat → List Nat → Bool
  | [], _ => true
  | _ :: _, [] => false
  | a :: as1, b :: bs => if a < b then true else if b < a then false else lexLe as1 bs

def insertLex (x : List Nat) : List (List Nat) → List (List Nat)
  | [] => [x]
  | y :: ys => if lexLe x y then x :: y :: ys else y :: insertLex x ys

/-- `matches.sort()` of src/glob.rs. -/
def sortLex : List (List Nat) → List (List Nat)
  | [] => []
  | x :: xs => insertLex x (sortLex xs)

/-- Embeds `expand_in_dir` from src/glob.rs: entries of `dir` (oracle),
skipping dotfiles unless the pattern starts with `.`, keeping the names
matched by the pattern (prefixed by `dir/` unless `dir` is `.`),
sorted. -/
def expand_in_dir (fs : FS) (dir file_pat : List Nat) : List (List Nat) :=
  match fs.readDir dir with
  | none => []
  | some entries =>
    let ms := entries.filterMap (fun name =>
      if name.head? == some 46 && !(file_pat.head? == some 46) then none
      else if matches_pattern file_pat name then
        some (if dir == [46] then name else dir ++ 47 :: name)
      else none)
    sortLex ms

/-- Rust `str::rfind('/')`. -/
def rfindSlash (l : List Nat) : Option Nat :=
  match l.reverse.findIdx? (fun b => b == 47) with
  | some i => some (l.length - 1 - i)
  | none => none

/-- Embeds `expand` from src/glob.rs, with fuel for the recursion on the
directory part (a strict prefix of the pattern, so `length + 1`
suffices): collect the matches — splitting at the last `/` and
recursing when the directory part itself has glob characters — and
return the original pattern when nothing matched. -/
def glob_expandF (fs : FS) : Nat → List Nat → List (List Nat)
  | 0, pattern => [pattern]
  | fuel + 1, pattern =>
    let results :=
      match rfindSlash pattern with
      | some slash_pos =>
        let dir_part := pattern.take slash_pos
        let file_part := pattern.drop (slash_pos + 1)
        if has_glob_chars dir_part then
          let dir_candidates := glob_expandF fs fuel dir_part
          (dir_candidates.filter fs.isDir).flatMap
            (fun d => expand_in_dir fs d file_part)
        else
          let dir := if dir_part.isEmpty then [47] else dir_part
          expand_in_dir fs dir file_part
      | none => expand_in_dir fs [46] pattern
    if results.isEmpty then [pattern] else results

def glob_expand (fs : FS) (pattern : List Nat) : List (List Nat) :=
  glob_expandF fs (pattern.length + 1) pattern

/-- Rust `str::contains` for a fixed needle (used for `$(` and
backtick detection). -/
def containsSub (pat : List Nat) : List Nat → Bool
  | [] => pat.isEmpty
  | b :: rest => pat.isPrefixOf (b :: rest) || containsSub pat rest

/-- Embeds `expand_args_full` from src/executor.rs: per argument,
command substitution (when `$(` or a backtick occurs in the word), then
tilde, then brace, then glob expansion, accumulating into the result
vector. -/
def expand_args_full (csub : List Nat → List Nat) (home : Option (List Nat))
    (pw : List Nat → Option (List Nat)) (fs : FS)
    (args : List (List Nat)) : List (List Nat) :=
  args.foldl (fun result arg =>
    let sub_expanded :=
      if containsSub [36, 40] arg || containsSub [96] arg then csub arg else arg
    let tilde_expanded := expand_tilde home pw sub_expanded
    let brace_expanded := expand_braces tilde_expanded
    brace_expanded.foldl (fun res word =>
      if has_glob_chars word then res ++ glob_expand fs word
      else res ++ [word]) result) []

/-- The claim's stage pipeline: command substitution, then tilde, then
brace (one word to many), then glob, concatenated in argument order. -/
def spec_expand_stages (csub : List Nat → List Nat) (home : Option (List Nat))
    (pw : List Nat → Option (List Nat)) (fs : FS)
    (args : List (List Nat)) : List (List Nat) :=
  args.flatMap (fun arg =>
    (expand_braces (expand_tilde home pw
        (if containsSub [36, 40] arg || containsSub [96] arg then csub arg
         else arg))).flatMap
      (fun word => if has_glob_chars word then glob_expand fs word else [word]))

theorem foldl_glob_append (fs : FS) :
    ∀ (l : List (List Nat)) (acc : List (List Nat)),
      l.foldl (fun res word =>
        if has_glob_chars word then res ++ glob_expand fs word
        else res ++ [word]) acc =
      acc ++ l.flatMap (fun word =>
        if has_glob_chars word then glob_expand fs word else [word]) := by
  intro l
  induction l with
  | nil => intro acc; simp
  | cons w rest ih =>
    intro acc
    rw [List.foldl_cons, List.flatMap_cons, ih]
    by_cases hg : has_glob_chars w = true
    · rw [if_pos hg, if_pos hg, List.append_assoc]
    · rw [if_neg hg, if_neg hg, List.append_assoc]

theorem expand_args_foldl (csub : List Nat → List Nat)
    (home : Option (List Nat)) (pw : List Nat → Option (List Nat)) (fs : FS) :
    ∀ (args : List (List Nat)) (acc : List (List Nat)),
      args.foldl (fun result arg =>
        (expand_braces (expand_tilde home pw
          (if containsSub [36, 40] arg || containsSub [96] arg then csub arg
           else arg))).foldl (fun res word =>
          if has_glob_chars word then res ++ glob_expand fs word
          else res ++ [word]) result) acc =
      acc ++ args.flatMap (fun arg =>
        (expand_braces (expand_tilde home pw
          (if containsSub [36, 40] arg || containsSub [96] arg then csub arg
           else arg))).flatMap
          (fun word => if has_glob_chars word then glob_expand fs word
           else [word])) := by
  intro args
  induction args with
  | nil => intro acc; simp
  | cons arg rest ih =>
    intro acc
    rw [List.foldl_cons, List.flatMap_cons, ih, foldl_glob_append,
      List.append_assoc]

/-- C2: per argument word the executor applies command substitution,
then tilde expansion, then brace expansion (one word may become many),
then glob expansion, in exactly that order (first conjunct, for every
substitution oracle, HOME/passwd oracle and filesystem); second
conjunct: a pattern word (containing glob characters, without `/`)
whose visible directory entries all fail to match is retained
literally; third conjunct: a concrete run of `~/f*` with HOME=`/h` and
`/h` containing `f1` and `x` expands to `/h/f1` through all four
stages. -/
theorem expand_args_full_stage_order (csub : List Nat → List Nat)
    (home : Option (List Nat)) (pw : List Nat → Option (List Nat)) (fs : FS)
    (args : List (List Nat)) :
    expand_args_full csub home pw fs args =
      spec_expand_stages csub home pw fs args ∧
    (∀ pat : List Nat, has_glob_chars pat = true → rfindSlash pat = none →
      (∀ name ∈ (fs.readDir [46]).getD [],
        (name.head? = some 46 ∧ ¬(pat.head? = some 46)) ∨
          matches_pattern pat name = false) →
      glob_expand fs pat = [pat]) ∧
    expand_args_full id (some [47, 104]) (fun _ => none)
      ⟨fun d => if d == [47, 104] then some [[102, 49], [120]]
                else if d == [46] then some [] else none,
       fun _ => false⟩
      [[126, 47, 102, 42]] = [[47, 104, 47, 102, 49]] := by
  refine ⟨?_, ?_, by decide⟩
  · rw [expand_args_full, spec_expand_stages]
    rw [expand_args_foldl]
    rfl
  · intro pat hglob hslash hent
    rw [glob_expand]
    rw [glob_expandF]
    simp only [hslash]
    have hdir : expand_in_dir fs [46] pat = [] := by
      rw [expand_in_dir]
      cases hrd : fs.readDir [46] with
      | none => rfl
      | some entries =>
        rw [hrd] at hent
        simp only [Option.getD_some] at hent
        have hfm : entries.filterMap (fun name =>
            if name.head? == some 46 && !(pat.head? == some 46) then none
            else if matches_pattern pat name then
              some (if [46] == [46] then name else [46] ++ 47 :: name)
            else none) = ([] : List (List Nat)) := by
          rw [List.filterMap_eq_nil_iff]
          intro name hname
          rcases hent name hname with ⟨hdot, hpdot⟩ | hmf
          · rw [if_pos]
            rw [Bool.and_eq_true]
            constructor
            · simpa using hdot
            · simpa using hpdot
          · by_cases hc : (name.head? == some 46 && !(pat.head? == some 46)) = true
            · rw [if_pos hc]
            · rw [if_neg hc, if_neg (by simp [hmf])]
        simp only []
        rw [hfm]
        rfl
    rw [hdir]
    rfl

/-- Filesystem oracle for the C2 witness: `/h` contains `f1` and `x`,
the current directory is empty. -/
def fsW : FS :=
  ⟨fun d => if d == [47, 104] then some [[102, 49], [120]]
            else if d == [46] then some [] else none,
   fun _ => false⟩

/-- Witness for C2: the stage-order equality at a concrete argument
list, literal retention of the unmatched pattern `z*`, and the concrete
`~/f*` run. -/
theorem expand_args_full_stage_order_witness :
    expand_args_full id (some [47, 104]) (fun _ => none) fsW
        [[126, 47, 102, 42]] =
      spec_expand_stages id (some [47, 104]) (fun _ => none) fsW
        [[126, 47, 102, 42]] ∧
    glob_expand fsW [122, 42] = [[122, 42]] ∧
    expand_args_full id (some [47, 104]) (fun _ => none)
      ⟨fun d => if d == [47, 104] then some [[102, 49], [120]]
                else if d == [46] then some [] else none,
       fun _ => false⟩
      [[126, 47, 102, 42]] = [[47, 104, 47, 102, 49]] :=
  ⟨(expand_args_full_stage_order id (some [47, 104]) (fun _ => none) fsW
      [[126, 47, 102, 42]]).1,
   (expand_args_full_stage_order id (some [47, 104]) (fun _ => none) fsW
      [[126, 47, 102, 42]]).2.1 [122, 42] (by decide) (by decide) (by decide),
   (expand_args_full_stage_order id (some [47, 104]) (fun _ => none) fsW
      [[126, 47, 102, 42]]).2.2⟩
